import Mathlib

/-!
# The OpenAPI query layer of go-openapi-exploration-mcp-server

A shallow embedding of `internal/handlers.go`, `internal/utils.go` and the
constants of `internal/server.go`, together with the library functions the
handlers call (Go `strings`, `sort`, kin-openapi `openapi3`, mcp-go `mcp`).

Conventions of the embedding:

* a Go `string` is a Lean `String`, read as its sequence of runes; the documents
  and arguments reach the handlers through JSON/YAML decoders, so they are valid
  UTF-8, where byte-wise order and rune-wise order coincide;
* a Go `map[string]V` is an association list `GoMap V`; `range` over a map visits
  the entries in an unspecified order, which a `RangeOrder` makes explicit;
* a Go pointer to a schema is an address in the `heap` of the specification, so
  that schema graphs with cycles are values of the model;
* Go `int` is `Int` (no arithmetic of the handlers can overflow: the only
  additions are counters bounded by the size of the document);
* a Go panic is the `Except.error` outcome of a handler.
-/

namespace OpenAPIMCP

/-! ## Go strings -/

/-- Go `strings.HasPrefix(s, prefix)`. -/
def HasPrefix (s pre : String) : Bool :=
  pre.data.isPrefixOf s.data

/-- Go `strings.TrimPrefix(s, prefix)`: `s` without the leading `prefix`, or `s`
itself when it does not start with `prefix`. -/
def TrimPrefix (s pre : String) : String :=
  if HasPrefix s pre then String.mk (s.data.drop pre.data.length) else s

/-- The runes of a string cut at every occurrence of `sep`. -/
def splitRunes (sep : Char) : List Char → List (List Char)
  | [] => [[]]
  | c :: cs =>
    if c = sep then [] :: splitRunes sep cs
    else
      match splitRunes sep cs with
      | [] => [[c]]
      | seg :: rest => (c :: seg) :: rest

/-- Go `strings.Split(s, sep)` for a separator of one ASCII character (the
handlers only split at "/" and at "{"): the substrings between the separators;
the result always has at least one element. -/
def Split (s : String) (sep : Char) : List String :=
  (splitRunes sep s.data).map String.mk

/-- The part of the Unicode case tables of the Go runtime that lies outside ASCII.
The handlers are verified for every such table. -/
structure UnicodeTables where
  /-- Go `unicode.ToUpper` on runes above `unicode.MaxASCII`. -/
  upper : Char → Char
  /-- A fixed representative of the `unicode.SimpleFold` orbit of a rune that is
  not ASCII (an ASCII lower-case letter when the orbit has one). -/
  fold : Char → Char

/-- The tables that change nothing outside ASCII. -/
def UnicodeTables.ascii : UnicodeTables := ⟨fun c => c, fun c => c⟩

/-- Go `unicode.ToUpper`: ASCII letters by arithmetic, other runes by the table. -/
def toUpperRune (u : UnicodeTables) (c : Char) : Char :=
  if c.val < 128 then c.toUpper else u.upper c

/-- Go `strings.ToUpper`. -/
def ToUpper (u : UnicodeTables) (s : String) : String :=
  String.mk (s.data.map (toUpperRune u))

/-- Go `<` on strings: lexicographic on the bytes, which for valid UTF-8 is
lexicographic on the runes. -/
def strLess (a b : String) : Prop := a.data < b.data

instance (a b : String) : Decidable (strLess a b) := by
  unfold strLess; infer_instance

/-! ## Go maps -/

/-- A Go `map[string]V`, as the list of its entries. -/
abbrev GoMap (α : Type) := List (String × α)

/-- Go `m[k]` with the comma-ok form: the value stored under `k`, if any. -/
def GoMap.get {α : Type} (m : GoMap α) (k : String) : Option α :=
  match m with
  | [] => none
  | (k', v) :: rest => if k' = k then some v else GoMap.get rest k

/-- Go `m[k]++` on a `map[string]int`: a missing key counts as zero. -/
def GoMap.incr (m : GoMap Int) (k : String) : GoMap Int :=
  match m with
  | [] => [(k, 1)]
  | (k', n) :: rest => if k' = k then (k', n + 1) :: rest else (k', n) :: GoMap.incr rest k

/-- Go leaves the order of `range` over a map unspecified. A `RangeOrder` fixes,
for every map, one order in which its entries are visited. -/
structure RangeOrder where
  /-- The entries of the map in the order of the visit. -/
  visit : {α : Type} → GoMap α → GoMap α
  /-- Every entry is visited exactly once. -/
  perm : ∀ {α : Type} (m : GoMap α), (visit m).Perm m

/-- The order that visits the entries as the list holds them. -/
def RangeOrder.asListed : RangeOrder := ⟨fun m => m, fun m => List.Perm.refl m⟩

/-- The order that visits the entries last to first. -/
def RangeOrder.reversed : RangeOrder := ⟨fun m => m.reverse, fun m => List.reverse_perm m⟩

/-! ## Results -/

/-- A value handed to `json.MarshalIndent`. An object holds its fields in the
order the handler sets them; the encoder writes them sorted by key. -/
inductive JVal where
  | null
  | bool (b : Bool)
  | int (n : Int)
  | str (s : String)
  | arr (xs : List JVal)
  | obj (kvs : List (String × JVal))

/-- The classes of section 7 of the specification for the error results. The
source builds every error result with `mcp.NewToolResultError(message)`; the
class recorded next to the message is the one the specification gives to the
condition that the message reports. -/
inductive ErrorKind where
  | NotFound
  | InvalidArgument
  | Internal
deriving DecidableEq

/-- An `mcp.CallToolResult`. -/
inductive ToolResult where
  /-- The result of `mcp.NewToolResultText` on a plain message. -/
  | text (msg : String)
  /-- The result of `JSONResponse`: the text is the indented JSON of `data`. -/
  | json (data : JVal)
  /-- The result of `mcp.NewToolResultError`. -/
  | error (kind : ErrorKind) (msg : String)

/-- The arguments of an `mcp.CallToolRequest`. -/
abbrev CallToolRequest := GoMap JVal

/-- The mcp-go `request.RequireString(key)`: the string argument, or the message
of the error. -/
def RequireString (request : CallToolRequest) (key : String) : Except String String :=
  match request.get key with
  | some (.str s) => .ok s
  | some _ => .error ("argument \"" ++ key ++ "\" is not a string")
  | none => .error ("required argument \"" ++ key ++ "\" not found")

/-! ## The parsed specification (kin-openapi `openapi3`) -/

/-- The address of a schema object: a Go `*openapi3.Schema`. -/
abbrev Addr := Nat

/-- The kin-openapi `SchemaRef`: the reference string as written in the document (empty
for an inline schema) and the pointer to the schema it denotes (`none` is nil). -/
structure SchemaRef where
  Ref : String
  Value : Option Addr

/-- The fields of kin-openapi `Schema` that the handlers read. `Type_` is its `Type`, the
`*Types` pointer, `Items` a `*SchemaRef`, `Properties` a `map[string]*SchemaRef`. -/
structure Schema where
  Type_ : Option (List String)
  Format : String
  Description : String
  Enum : List JVal
  Required : List String
  Items : Option SchemaRef
  Properties : GoMap (Option SchemaRef)

/-- The kin-openapi `MediaType`. -/
structure MediaType where
  Schema : Option SchemaRef

/-- The kin-openapi `RequestBody`; `Content` is a map, `none` when nil. -/
structure RequestBody where
  Description : String
  Required : Bool
  Content : Option (GoMap MediaType)

/-- The kin-openapi `RequestBodyRef`. -/
structure RequestBodyRef where
  Value : Option RequestBody

/-- The kin-openapi `Response`, as the loader leaves it under a resolved
`ResponseRef`; `Description` is a `*string`. -/
structure Response where
  Description : Option String
  Content : Option (GoMap MediaType)

/-- The kin-openapi `Parameter`, as the loader leaves it under a resolved
`ParameterRef`. -/
structure Parameter where
  Name : String
  In : String
  Required : Bool
  Description : String
  Schema : Option SchemaRef

/-- The kin-openapi `Operation`; `Tags` is a slice (`none` when nil), `Responses`
the `*Responses` pointer with its map. -/
structure Operation where
  Summary : String
  Description : String
  OperationID : String
  Tags : Option (List String)
  Parameters : List Parameter
  RequestBody : Option RequestBodyRef
  Responses : Option (GoMap Response)

/-- The kin-openapi `PathItem`: one optional operation for each HTTP method. -/
structure PathItem where
  Connect : Option Operation
  Delete : Option Operation
  Get : Option Operation
  Head : Option Operation
  Options : Option Operation
  Patch : Option Operation
  Post : Option Operation
  Put : Option Operation
  Trace : Option Operation

/-- The kin-openapi `Contact`. -/
structure Contact where
  Name : String
  Email : String
  URL : String

/-- The kin-openapi `License`. -/
structure License where
  Name : String
  URL : String

/-- The kin-openapi `Info`. -/
structure Info where
  Title : String
  Version : String
  Description : String
  Contact : Option Contact
  License : Option License

/-- The kin-openapi `Tag`. -/
structure Tag where
  Name : String

/-- The kin-openapi `Server`. -/
structure Server where
  URL : String
  Description : String

/-- The kin-openapi `Components`; `Schemas` is a map, `none` when nil. -/
structure Components where
  Schemas : Option (GoMap SchemaRef)

/-- The loaded document `openapi3.T` held by `OpenAPIServer.spec`, with the schema
objects its pointers lead to. `Info` is the `*Info` pointer, nil (`none`) for a
document without an info block: `LoadSpec` calls `loader.LoadFromData` and never
`Validate`, so such a document is loaded. `Paths` is the map behind
`spec.Paths.Map()`. -/
structure T where
  Info : Option Info
  Paths : GoMap PathItem
  Components : Option Components
  Tags : List Tag
  Servers : List Server
  heap : Addr → Schema

/-- What `loader.LoadFromData` guarantees of the entries of `components.schemas`: its
`resolveSchemaRef` refuses an entry that has neither a reference string nor a
value (`invalid schema: value MUST be an object`), and `LoadSpec` is the only
place that assigns `oas.spec`. -/
def schemasResolved (spec : T) : Bool :=
  match spec.Components with
  | none => true
  | some components =>
    match components.Schemas with
    | none => true
    | some schemas => schemas.all (fun entry => entry.2.Ref != "" || entry.2.Value.isSome)

/-- An entry of the map of `Operations`, present when the field is not nil. -/
def opEntry (method : String) (operation : Option Operation) : GoMap Operation :=
  match operation with
  | some v => [(method, v)]
  | none => []

/-- The kin-openapi `pathItem.Operations()`: the map from the upper-case method name to
each operation that is not nil. -/
def PathItem.Operations (pathItem : PathItem) : GoMap Operation :=
  opEntry "CONNECT" pathItem.Connect ++ opEntry "DELETE" pathItem.Delete ++
  opEntry "GET" pathItem.Get ++ opEntry "HEAD" pathItem.Head ++
  opEntry "OPTIONS" pathItem.Options ++ opEntry "PATCH" pathItem.Patch ++
  opEntry "POST" pathItem.Post ++ opEntry "PUT" pathItem.Put ++
  opEntry "TRACE" pathItem.Trace

/-- The kin-openapi `pathItem.GetOperation(method)`: a switch over the nine method names
of `net/http`, whose default case panics. -/
def PathItem.GetOperation (pathItem : PathItem) (method : String) :
    Except String (Option Operation) :=
  if method = "CONNECT" then .ok pathItem.Connect
  else if method = "DELETE" then .ok pathItem.Delete
  else if method = "GET" then .ok pathItem.Get
  else if method = "HEAD" then .ok pathItem.Head
  else if method = "OPTIONS" then .ok pathItem.Options
  else if method = "PATCH" then .ok pathItem.Patch
  else if method = "POST" then .ok pathItem.Post
  else if method = "PUT" then .ok pathItem.Put
  else if method = "TRACE" then .ok pathItem.Trace
  else .error ("unsupported HTTP method \"" ++ method ++ "\"")

/-- The left brace, the rune that opens a path variable. -/
def lbrace : Char := Char.ofNat 123

/-- The right brace. -/
def rbrace : Char := Char.ofNat 125

/-- The loop of kin-openapi `normalizeTemplatedPath` over the runes of the path: the
template written so far is continued with the runes outside the variables and
with the two braces of every variable, and `count` is the number of variables.
The arguments are the loop variables `isVariable`, `cc` and `i`: `cc` is the rune
appended last (the zero rune at the start), since the branch that reads a rune of
a variable name ends in `continue`, before `cc = c`; `i` is the position of the
rune, which is 0 for the first rune only. The test `i > 0 && cc == '*'` at a
closing brace writes `cc` before the brace. -/
def normalizeRunes : Bool → Char → Nat → List Char → List Char × Nat
  | _, _, _, [] => ([], 0)
  | true, cc, i, c :: cs =>
    if c = rbrace then
      let r := normalizeRunes false c (i + 1) cs
      ((if 0 < i ∧ cc = '*' then [cc, c] else [c]) ++ r.1, r.2)
    else normalizeRunes true cc (i + 1) cs
  | false, _, i, c :: cs =>
    if c = lbrace then
      let r := normalizeRunes true c (i + 1) cs
      (c :: r.1, r.2 + 1)
    else
      let r := normalizeRunes false c (i + 1) cs
      (c :: r.1, r.2)

/-- The kin-openapi `normalizeTemplatedPath(path)`, without the set of variable names,
which `Find` ignores. -/
def normalizeTemplatedPath (path : String) : String × Nat :=
  if lbrace ∈ path.data then
    let r := normalizeRunes false (Char.ofNat 0) 0 path.data
    (String.mk r.1, r.2)
  else (path, 0)

/-- The kin-openapi `paths.Find(key)`: the item stored under `key`; failing that, the
first item visited whose template is `key` up to the names of the variables. -/
def Find (ord : RangeOrder) (paths : GoMap PathItem) (key : String) : Option PathItem :=
  match paths.get key with
  | some pathItem => some pathItem
  | none =>
    let expected := normalizeTemplatedPath key
    ((ord.visit paths).find? (fun entry =>
      let got := normalizeTemplatedPath entry.1
      got.2 == expected.2 && got.1 == expected.1)).map Prod.snd

/-! ## `internal/server.go`: the depth bounds -/

/-- The depth bound for the schemas shown inside an endpoint. -/
def SchemaMaxDepth : Int := 2

/-- The depth bound for a schema shown on its own. -/
def DetailedSchemaMaxDepth : Int := 4

/-! ## `internal/utils.go` -/

/-- The expression `items[i]["name"].(string)` with its comma-ok form: the name of
a result object, the empty string when the field is absent or not a string. -/
def nameOf (item : GoMap JVal) : String :=
  match item.get "name" with
  | some (.str s) => s
  | _ => ""

/-- The comparison handed to `sort.Slice` by `SortMapsByName`. -/
def lessByName (a b : GoMap JVal) : Prop := strLess (nameOf a) (nameOf b)

instance (a b : GoMap JVal) : Decidable (lessByName a b) := by
  unfold lessByName; infer_instance

/-- Go `sort.Slice(items, less)`, as the insertion sort that puts an element
before the first one that is not less than it. `sort.Slice` promises no
stability; on elements that `less` tells apart every sort gives the same list. -/
def sortSlice {α : Type} (less : α → α → Prop) [DecidableRel less] (items : List α) : List α :=
  items.insertionSort (fun a b => ¬ less b a)

/-- The function `SortMapsByName`. -/
def SortMapsByName (items : List (GoMap JVal)) : List (GoMap JVal) :=
  sortSlice lessByName items

/-- The function `JSONResponse`. The values the handlers build are trees of maps,
slices, strings, integers and booleans, which `json.MarshalIndent` always
encodes, so the branch for an encoder error is not taken. -/
def JSONResponse (data : JVal) : ToolResult := .json data

/-! ## `internal/handlers.go`: list_categories -/

/-- Lines 18 to 24 of `listCategoriesHandler`: the category of one path, `none`
when the guard `len(segments) > 0 && segments[0] != ""` fails. -/
def categoryOfPath (path : String) : Option String :=
  let trimmedPath := TrimPrefix path "/"
  let segments := Split trimmedPath '/'
  match segments with
  | seg0 :: _ =>
    if seg0 ≠ "" then
      let category := (Split seg0 lbrace).headD ""
      some category
    else none
  | [] => none

/-- The first loop of `listCategoriesHandler`: the tally of the categories. -/
def tallyCategories (visited : GoMap PathItem) : GoMap Int :=
  visited.foldl (fun categoriesMap entry =>
    match categoryOfPath entry.1 with
    | some category => categoriesMap.incr category
    | none => categoriesMap) []

/-- One element of the slice `categories`. -/
def categoryEntry (entry : String × Int) : GoMap JVal :=
  [("name", .str entry.1), ("endpoint_count", .int entry.2)]

/-- The handler `listCategoriesHandler`. -/
def listCategoriesHandler (ord : RangeOrder) (spec : T) (_request : CallToolRequest) :
    ToolResult :=
  let categoriesMap := tallyCategories (ord.visit spec.Paths)
  if categoriesMap.length = 0 then
    .text "No categories found in the OpenAPI specification"
  else
    let categories := (ord.visit categoriesMap).map categoryEntry
    JSONResponse (.arr ((SortMapsByName categories).map JVal.obj))

/-! ## `internal/handlers.go`: list_endpoints -/

/-- Lines 61 to 66 of `listEndpointsHandler`: the category of one path, `none`
when the guard `len(segments) > 0 && segments[0] != ""` fails. -/
def pathCategoryOfPath (path : String) : Option String :=
  let trimmedPath := TrimPrefix path "/"
  let segments := Split trimmedPath '/'
  match segments with
  | seg0 :: _ =>
    if seg0 ≠ "" then
      let pathCategory := (Split seg0 lbrace).headD ""
      some pathCategory
    else none
  | [] => none

/-- Lines 314 to 333 of `schemaToMapWithDepth`: the fields `type`, `format`,
`description` and `required`, each left out when empty. -/
def schemaHead (schema : Schema) : GoMap JVal :=
  let result : GoMap JVal := []
  let result :=
    match schema.Type_ with
    | some [t] => result ++ [("type", .str t)]
    | some (t :: t' :: ts) => result ++ [("type", .arr ((t :: t' :: ts).map JVal.str))]
    | _ => result
  let result := if schema.Format ≠ "" then result ++ [("format", .str schema.Format)] else result
  let result :=
    if schema.Description ≠ "" then result ++ [("description", .str schema.Description)]
    else result
  let result :=
    if schema.Required.length > 0 then result ++ [("required", .arr (schema.Required.map JVal.str))]
    else result
  result

/-- Lines 358 to 360 of `schemaToMapWithDepth`: the field `enum`. -/
def schemaEnum (schema : Schema) : GoMap JVal :=
  if schema.Enum.length > 0 then [("enum", .arr schema.Enum)] else []

/-- The placeholder `fmt.Sprintf("[%d properties not expanded]", n)`. -/
def propertiesPlaceholder (n : Nat) : String :=
  "[" ++ toString n ++ " properties not expanded]"

/-- Lines 349 to 355 of `schemaToMapWithDepth`: the placeholders at the bound. -/
def schemaPlaceholders (schema : Schema) : GoMap JVal :=
  (if schema.Properties.length > 0 then
    [("properties", JVal.str (propertiesPlaceholder schema.Properties.length))]
  else []) ++
  (match schema.Items with
   | some _ => [("items", JVal.str "[not expanded]")]
   | none => [])

/-- The method `schemaToMapWithDepth`. The result is the Go map, `JVal.null` for
the nil map. The map `properties` is built by a `range` over a map and is itself
a map, so the order of the visit leaves no trace in it. -/
def schemaToMapWithDepth (heap : Addr → Schema) (schemaRef : Option SchemaRef)
    (currentDepth maxDepth : Int) : JVal :=
  match schemaRef with
  | none => .null
  | some schemaRef =>
    if schemaRef.Ref ≠ "" then .obj [("$ref", .str schemaRef.Ref)]
    else
      match schemaRef.Value with
      | none => .null
      | some addr =>
        let schema := heap addr
        .obj (schemaHead schema ++
          (if _h : currentDepth < maxDepth then
            (if schema.Properties.length > 0 then
              [("properties", JVal.obj (schema.Properties.map (fun prop =>
                (prop.1, schemaToMapWithDepth heap prop.2 (currentDepth + 1) maxDepth))))]
            else []) ++
            (match schema.Items with
             | some items =>
               [("items", schemaToMapWithDepth heap (some items) (currentDepth + 1) maxDepth)]
             | none => [])
          else schemaPlaceholders schema) ++
          schemaEnum schema)
termination_by (maxDepth - currentDepth).toNat
decreasing_by all_goals omega

/-- The method `schemaToMap`. -/
def schemaToMap (heap : Addr → Schema) (schemaRef : Option SchemaRef) : JVal :=
  schemaToMapWithDepth heap schemaRef 0 SchemaMaxDepth

/-! ## `internal/handlers.go`: show_endpoint -/

/-- The encoding of a `*openapi3.Types` by its `MarshalJSON`: nothing for no
type, the string for one type, the array for several. -/
def typesJSON : Option (List String) → JVal
  | none => .null
  | some [] => .null
  | some [t] => .str t
  | some ts => .arr (ts.map JVal.str)

/-- Lines 137 to 150 of `showEndpointHandler`: the description of one parameter. -/
def paramInfo (heap : Addr → Schema) (param : Parameter) : GoMap JVal :=
  let paramInfo : GoMap JVal :=
    [("name", .str param.Name), ("in", .str param.In), ("required", .bool param.Required),
     ("description", .str param.Description)]
  match param.Schema with
  | some schemaRef =>
    match schemaRef.Value with
    | some addr =>
      let paramInfo := paramInfo ++ [("type", typesJSON (heap addr).Type_)]
      if (heap addr).Format ≠ "" then paramInfo ++ [("format", .str (heap addr).Format)]
      else paramInfo
    | none => paramInfo
  | none => paramInfo

/-- The loops over a `Content` map at lines 163 to 167 and 183 to 187: one field
for each media type that has a schema. The result is a map. -/
def contentToMap (heap : Addr → Schema) (content : GoMap MediaType) : GoMap JVal :=
  content.filterMap (fun entry =>
    match entry.2.Schema with
    | some schemaRef => some (entry.1, schemaToMap heap (some schemaRef))
    | none => none)

/-- Lines 157 to 170 of `showEndpointHandler`: the request body. -/
def requestBodyInfo (heap : Addr → Schema) (body : RequestBody) : GoMap JVal :=
  let reqBody : GoMap JVal :=
    [("description", .str body.Description), ("required", .bool body.Required)]
  match body.Content with
  | some content => reqBody ++ [("content", .obj (contentToMap heap content))]
  | none => reqBody

/-- Lines 177 to 190 of `showEndpointHandler`: one response. -/
def responseInfo (heap : Addr → Schema) (response : Response) : GoMap JVal :=
  let respInfo : GoMap JVal :=
    [("description", match response.Description with
                     | some d => JVal.str d
                     | none => JVal.null)]
  match response.Content with
  | some content => respInfo ++ [("content", .obj (contentToMap heap content))]
  | none => respInfo

/-- Lines 124 to 193 of `showEndpointHandler`: the description of the operation. -/
def endpointDetail (u : UnicodeTables) (heap : Addr → Schema) (path method : String)
    (operation : Operation) : GoMap JVal :=
  let result : GoMap JVal :=
    [("path", .str path), ("method", .str (ToUpper u method)),
     ("summary", .str operation.Summary), ("description", .str operation.Description),
     ("operationId", .str operation.OperationID),
     ("tags", match operation.Tags with
              | some tags => JVal.arr (tags.map JVal.str)
              | none => JVal.null)]
  let result :=
    if operation.Parameters.length > 0 then
      result ++ [("parameters", .arr (operation.Parameters.map (fun p => .obj (paramInfo heap p))))]
    else result
  let result :=
    match operation.RequestBody with
    | some bodyRef =>
      match bodyRef.Value with
      | some body => result ++ [("requestBody", .obj (requestBodyInfo heap body))]
      | none => result
    | none => result
  let result :=
    match operation.Responses with
    | some responses =>
      result ++ [("responses", .obj (responses.map (fun r => (r.1, .obj (responseInfo heap r.2)))))]
    | none => result
  result

/-- The handler `showEndpointHandler`. The outcome `Except.error` is the panic of
`GetOperation`; nothing on the way to the caller recovers from it. -/
def showEndpointHandler (u : UnicodeTables) (ord : RangeOrder) (spec : T)
    (request : CallToolRequest) : Except String ToolResult :=
  match RequireString request "path" with
  | .error err => .ok (.error .InvalidArgument err)
  | .ok path =>
    match RequireString request "method" with
    | .error err => .ok (.error .InvalidArgument err)
    | .ok method =>
      match Find ord spec.Paths path with
      | none => .ok (.error .NotFound ("Path not found: " ++ path))
      | some pathItem =>
        match pathItem.GetOperation (ToUpper u method) with
        | .error panicValue => .error panicValue
        | .ok none =>
          .ok (.error .NotFound ("Method " ++ method ++ " not found for path: " ++ path))
        | .ok (some operation) =>
          .ok (JSONResponse (.obj (endpointDetail u spec.heap path method operation)))

/-! ## `internal/handlers.go`: get_spec_info -/

/-- Lines 221 to 226 of `getSpecInfoHandler`: the pair `(pathCount, operationCount)`
after the loop. -/
def countStats (visited : GoMap PathItem) : Int × Int :=
  visited.foldl (fun counts entry =>
    (counts.1 + 1, counts.2 + (entry.2.Operations.length : Int))) (0, 0)

/-- The value of the Go panic for a load through a nil pointer. -/
def nilDereference : String := "runtime error: invalid memory address or nil pointer dereference"

/-- The handler `getSpecInfoHandler`. Line 200 reads `oas.spec.Info.Title` without a
test of `oas.spec.Info`: on a nil pointer the handler panics, which is the
outcome `Except.error`. -/
def getSpecInfoHandler (ord : RangeOrder) (spec : T) (_request : CallToolRequest) :
    Except String ToolResult :=
  match spec.Info with
  | none => .error nilDereference
  | some specInfo =>
    let info : GoMap JVal :=
      [("title", .str specInfo.Title), ("version", .str specInfo.Version),
       ("description", .str specInfo.Description)]
    let info :=
      match specInfo.Contact with
      | some contact =>
        info ++ [("contact", .obj [("name", .str contact.Name), ("email", .str contact.Email),
                                   ("url", .str contact.URL)])]
      | none => info
    let info :=
      match specInfo.License with
      | some license =>
        info ++ [("license", .obj [("name", .str license.Name), ("url", .str license.URL)])]
      | none => info
    let counts := countStats (ord.visit spec.Paths)
    let info := info ++ [("stats", .obj [("paths", .int counts.1), ("operations", .int counts.2),
                                         ("tags", .int spec.Tags.length)])]
    let info :=
      if spec.Servers.length > 0 then
        info ++ [("servers", .arr (spec.Servers.map (fun server =>
          .obj [("url", .str server.URL), ("description", .str server.Description)])))]
      else info
    .ok (JSONResponse (.obj info))

/-! ## `internal/handlers.go`: show_schema -/

/-- The handler `showSchemaHandler`. -/
def showSchemaHandler (spec : T) (request : CallToolRequest) : ToolResult :=
  match RequireString request "ref" with
  | .error err => .error .InvalidArgument err
  | .ok ref =>
    if ¬ HasPrefix ref "#/components/schemas/" then
      .error .InvalidArgument
        ("Invalid schema reference format. Expected: #/components/schemas/SchemaName, got: " ++ ref)
    else
      let schemaName := TrimPrefix ref "#/components/schemas/"
      match spec.Components with
      | none => .error .NotFound "No schemas found in the OpenAPI specification"
      | some components =>
        match components.Schemas with
        | none => .error .NotFound "No schemas found in the OpenAPI specification"
        | some schemas =>
          match schemas.get schemaName with
          | none => .error .NotFound ("Schema not found: " ++ schemaName)
          | some schemaRef =>
            let result : GoMap JVal := [("name", .str schemaName), ("ref", .str ref)]
            let result :=
              if schemaRef.Ref ≠ "" then
                result ++ [("schema", .obj [("$ref", .str schemaRef.Ref)])]
              else
                match schemaRef.Value with
                | some _ =>
                  result ++ [("schema",
                    schemaToMapWithDepth spec.heap (some schemaRef) 0 DetailedSchemaMaxDepth)]
                | none => result
            JSONResponse (.obj result)

/-! ## The words of the specification -/

/-- Specification, section 8, `strip_leading_slash`: remove one leading "/". -/
def strip_leading_slash (p : String) : String :=
  match p.data with
  | '/' :: rest => String.mk rest
  | _ => p

/-- Specification, section 8, `first_segment`: the text before the next "/". -/
def first_segment (s : String) : String :=
  String.mk (s.data.takeWhile (fun c => c ≠ '/'))

/-- Specification, section 8, `strip_from_first_brace`: drop everything from the
first left brace onward. -/
def strip_from_first_brace (s : String) : String :=
  String.mk (s.data.takeWhile (fun c => c ≠ lbrace))

/-- Specification, sections 3 and 8: the category of a path template. -/
def category (p : String) : String :=
  strip_from_first_brace (first_segment (strip_leading_slash p))

/-- Specification, section 2: the operations that a path item declares, each with
its HTTP method in upper case. -/
def declared_operations (pathItem : PathItem) : List (String × Operation) :=
  [("CONNECT", pathItem.Connect), ("DELETE", pathItem.Delete), ("GET", pathItem.Get),
   ("HEAD", pathItem.Head), ("OPTIONS", pathItem.Options), ("PATCH", pathItem.Patch),
   ("POST", pathItem.Post), ("PUT", pathItem.Put), ("TRACE", pathItem.Trace)].filterMap
    (fun declared => declared.2.map (fun operation => (declared.1, operation)))

/-- The keys of a map are pairwise distinct, as they are in every Go map. -/
def NodupKeys {α : Type} (m : GoMap α) : Prop := (m.map Prod.fst).Nodup

/-! ## Documents used as examples -/

/-- An operation with a summary and nothing else. -/
def plainOperation (summary : String) : Operation :=
  { Summary := summary, Description := "", OperationID := "", Tags := none, Parameters := [],
    RequestBody := none, Responses := none }

/-- A path item without operations. -/
def emptyItem : PathItem :=
  { Connect := none, Delete := none, Get := none, Head := none, Options := none,
    Patch := none, Post := none, Put := none, Trace := none }

/-- A path item that declares GET only. -/
def getItem : PathItem := { emptyItem with Get := some (plainOperation "read") }

/-- A path item that declares GET and DELETE. -/
def getDeleteItem : PathItem :=
  { emptyItem with Get := some (plainOperation "read"), Delete := some (plainOperation "remove") }

/-- A schema without any field. -/
def emptySchema : Schema :=
  { Type_ := none, Format := "", Description := "", Enum := [], Required := [], Items := none,
    Properties := [] }

/-- A document with the given paths and nothing else. -/
def specOfPaths (paths : GoMap PathItem) : T :=
  { Info := some { Title := "example", Version := "1", Description := "", Contact := none,
                   License := none },
    Paths := paths, Components := none, Tags := [], Servers := [],
    heap := fun _ => emptySchema }

/-- The paths `/users`, `/users/{id}` and `/orders` of section 8 of the specification. -/
def usersOrdersPaths (a b c : PathItem) : GoMap PathItem :=
  [("/users", a), ("/users/{id}", b), ("/orders", c)]

/-- A document whose two templates both have the category "" by section 3 of the
specification: the root path and a path that starts with a variable. -/
def rootAndVariablePaths : GoMap PathItem :=
  [("/", getItem), ("/{id}", getItem)]

/-- The nine method names of the switch in `GetOperation`. -/
def standardMethods : List String :=
  ["CONNECT", "DELETE", "GET", "HEAD", "OPTIONS", "PATCH", "POST", "PUT", "TRACE"]

/-- The document of section 8 for show_endpoint: `/users/{id}` with GET and DELETE. -/
def usersByIdSpec : T := specOfPaths [("/users/{id}", getDeleteItem)]

/-- The number of HTTP methods that a path item declares: the operation fields
that are not nil. -/
def declaredMethodCount (pathItem : PathItem) : Nat :=
  ([pathItem.Connect, pathItem.Delete, pathItem.Get, pathItem.Head, pathItem.Options,
    pathItem.Patch, pathItem.Post, pathItem.Put, pathItem.Trace].filter Option.isSome).length

/-- A schema object for the component `User`: an object with a name. -/
def userSchema : Schema :=
  { emptySchema with
    Type_ := some ["object"],
    Required := ["name"],
    Properties := [("name", some { Ref := "", Value := some 1 })] }

/-- The schema object of a string. -/
def stringSchema : Schema := { emptySchema with Type_ := some ["string"] }

/-- A document whose components declare the schema `User`. -/
def userSpec : T :=
  { specOfPaths [("/users/{id}", getDeleteItem)] with
    Components := some { Schemas := some [("User", { Ref := "", Value := some 0 })] },
    Tags := [{ Name := "users" }],
    heap := fun addr => if addr = 0 then userSchema else stringSchema }

/-! ## The shape of an expanded schema -/

/-- A placeholder in the place of a value that was not expanded: a string. -/
def isPlaceholder : JVal → Bool
  | .str _ => true
  | _ => false

/-- The check `withinDepth n v`: the rendered schema node `v` has expanded
(object-valued) `properties` and `items` nested at most `n` levels below it, and
at the level `n` every value of `properties` and of `items` is a placeholder
string. A value that is not an object (the nil map) renders no node. -/
def withinDepth : Nat → JVal → Bool
  | 0, .obj fields =>
    (match GoMap.get fields "properties" with
     | some x => isPlaceholder x
     | none => true) &&
    (match GoMap.get fields "items" with
     | some x => isPlaceholder x
     | none => true)
  | n + 1, .obj fields =>
    (match GoMap.get fields "properties" with
     | some (.obj props) => props.all (fun p => withinDepth n p.2)
     | some x => isPlaceholder x
     | none => true) &&
    (match GoMap.get fields "items" with
     | some x => isPlaceholder x || withinDepth n x
     | none => true)
  | _, _ => true

/-- A schema graph with cycles. The object at address 0 is the component `Node`,
whose property `next` refers to `Node` itself through a `$ref`; the object at
address 1 has a property and an item schema that point straight back to it. -/
def cyclicHeap : Addr → Schema := fun addr =>
  if addr = 0 then
    { emptySchema with
      Type_ := some ["object"],
      Properties := [("next", some { Ref := "#/components/schemas/Node", Value := some 0 })] }
  else
    { emptySchema with
      Type_ := some ["array"],
      Items := some { Ref := "", Value := some 1 },
      Properties := [("again", some { Ref := "", Value := some 1 })] }

/-- A document over the cyclic schema graph, with the components `Node` and `Loop`. -/
def cyclicSpec : T :=
  { specOfPaths [] with
    Components := some { Schemas := some [("Node", { Ref := "", Value := some 0 }),
                                          ("Loop", { Ref := "", Value := some 1 })] },
    heap := cyclicHeap }

/-! ## `internal/cache.go` -/

/-- A Go `[]byte`, one number for each byte. -/
abbrev Bytes := List Nat

/-- The value `DefaultCacheTTL` of `internal/server.go`: 24 hours, in nanoseconds. -/
def DefaultCacheTTL : Int := 24 * 3600 * 1000000000

/-- The struct `cacheMetadata`. A `time.Time` is the instant it denotes, in
nanoseconds. -/
structure cacheMetadata where
  URL : String
  CachedAt : Int
  Expiration : Int

/-- The struct `Cache`; `ttl` is a `time.Duration`, in nanoseconds. -/
structure Cache where
  dir : String
  ttl : Int

/-- The function `NewCache`. -/
def NewCache (dir : String) (ttl : Int) : Cache := { dir := dir, ttl := ttl }

/-- The library functions behind `generateKey`, `json.MarshalIndent` and
`json.Unmarshal`, as far as `cache.go` uses them. -/
structure CacheLibrary where
  /-- The hexadecimal SHA-256 digest: 64 hexadecimal digits. -/
  sha256hex : String → String
  /-- The JSON text of a `cacheMetadata`, `none` when the encoder returns an error. -/
  marshal : cacheMetadata → Option Bytes
  /-- The `cacheMetadata` read from a JSON text, `none` when the decoder returns an error. -/
  unmarshal : Bytes → Option cacheMetadata

/-- The cache directory. `available` tells whether `os.MkdirAll(dir)` returns nil
(the directory exists or can be created); `files` gives the content of each file
that `os.ReadFile` can read. -/
structure Disk where
  available : Bool
  files : String → Option Bytes

/-- The function `os.ReadFile`: nothing can be read in a directory that is not
available. -/
def Disk.ReadFile (disk : Disk) (path : String) : Option Bytes :=
  if disk.available then disk.files path else none

/-- The answer to `http.Get`: the status code and what `io.ReadAll(resp.Body)`
returns, `none` when reading the body fails. -/
structure HTTPResponse where
  StatusCode : Int
  Body : Option Bytes

/-- What the world outside the cache directory does during one call of
`LoadFromURL`: the clock at each of the three calls of `time.Now`, the network,
and the fate of each `os.WriteFile`. -/
structure Env where
  /-- The reading of `time.Now()` in `loadFromCache`. -/
  timeAtLoad : Int
  /-- The reading of `time.Now()` for `CachedAt` in `saveToCache`. -/
  timeAtCachedAt : Int
  /-- The reading of `time.Now()` for `Expiration` in `saveToCache`. -/
  timeAtExpiration : Int
  /-- The outcome of `http.Get(url)`, `none` for a transport failure. -/
  get : String → Option HTTPResponse
  /-- For each path, `none` when `os.WriteFile` succeeds, and otherwise what is
  left readable of the file after the failed write. -/
  writeFails : String → Option (Option Bytes)

/-- The function `os.WriteFile`: whether it succeeded, and the directory after it. -/
def WriteFile (env : Env) (disk : Disk) (path : String) (data : Bytes) : Bool × Disk :=
  match env.writeFails path with
  | none => (true, { disk with files := fun p => if p = path then some data else disk.files p })
  | some left => (false, { disk with files := fun p => if p = path then left else disk.files p })

/-- The reasons for which `loadFromCache` returns an error. -/
inductive CacheMiss where
  | metaUnreadable
  | metaUnparsable
  | expired
  | dataUnreadable
deriving DecidableEq

/-- The reasons for which `saveToCache` returns an error. -/
inductive SaveError where
  | dataWrite
  | marshal
  | metaWrite
deriving DecidableEq

/-- The errors that `LoadFromURL` returns. -/
inductive FetchError where
  /-- The error "failed to create cache directory". -/
  | mkdir
  /-- The error "failed to download spec" of a failed `http.Get`. -/
  | transport
  /-- The error "failed to download spec: HTTP" with the status code. -/
  | status (code : Int)
  /-- The error "failed to read response body". -/
  | body
deriving DecidableEq

/-- The method `generateKey`. -/
def Cache.generateKey (_c : Cache) (lib : CacheLibrary) (url : String) : String :=
  lib.sha256hex url

/-- The method `loadFromCache`. -/
def Cache.loadFromCache (_c : Cache) (lib : CacheLibrary) (env : Env) (disk : Disk)
    (cacheFile metaFile : String) : Except CacheMiss Bytes :=
  match disk.ReadFile metaFile with
  | none => .error .metaUnreadable
  | some metaData =>
    match lib.unmarshal metaData with
    | none => .error .metaUnparsable
    | some meta =>
      -- time.Now().After(meta.Expiration)
      if env.timeAtLoad > meta.Expiration then .error .expired
      else
        match disk.ReadFile cacheFile with
        | none => .error .dataUnreadable
        | some data => .ok data

/-- The method `saveToCache`: the error, if any, and the directory after it. -/
def Cache.saveToCache (c : Cache) (lib : CacheLibrary) (env : Env) (disk : Disk)
    (cacheFile metaFile url : String) (data : Bytes) : Option SaveError × Disk :=
  match WriteFile env disk cacheFile data with
  | (false, disk₁) => (some .dataWrite, disk₁)
  | (true, disk₁) =>
    let meta : cacheMetadata :=
      { URL := url, CachedAt := env.timeAtCachedAt, Expiration := env.timeAtExpiration + c.ttl }
    match lib.marshal meta with
    | none => (some .marshal, disk₁)
    | some metaData =>
      match WriteFile env disk₁ metaFile metaData with
      | (false, disk₂) => (some .metaWrite, disk₂)
      | (true, disk₂) => (none, disk₂)

/-- The path of the data artifact: `filepath.Join(c.dir, cacheKey+".json")`. On a
key of hexadecimal digits `filepath.Join` is the concatenation with a separator. -/
def Cache.cacheFile (c : Cache) (lib : CacheLibrary) (url : String) : String :=
  c.dir ++ "/" ++ (c.generateKey lib url ++ ".json")

/-- The path of the metadata artifact: `filepath.Join(c.dir, cacheKey+".meta.json")`. -/
def Cache.metaFile (c : Cache) (lib : CacheLibrary) (url : String) : String :=
  c.dir ++ "/" ++ (c.generateKey lib url ++ ".meta.json")

/-- What a call of `LoadFromURL` leaves: the returned bytes or error, the cache
directory, and the URLs of the network requests it issued. -/
structure Outcome where
  result : Except FetchError Bytes
  disk : Disk
  requests : List String

/-- The method `LoadFromURL`. -/
def Cache.LoadFromURL (c : Cache) (lib : CacheLibrary) (env : Env) (disk : Disk)
    (url : String) : Outcome :=
  if disk.available = false then
    { result := .error .mkdir, disk := disk, requests := [] }
  else
    match c.loadFromCache lib env disk (c.cacheFile lib url) (c.metaFile lib url) with
    | .ok cachedData => { result := .ok cachedData, disk := disk, requests := [] }
    | .error _ =>
      match env.get url with
      | none => { result := .error .transport, disk := disk, requests := [url] }
      | some resp =>
        if resp.StatusCode ≠ 200 then
          { result := .error (.status resp.StatusCode), disk := disk, requests := [url] }
        else
          match resp.Body with
          | none => { result := .error .body, disk := disk, requests := [url] }
          | some data =>
            let saved := c.saveToCache lib env disk (c.cacheFile lib url) (c.metaFile lib url)
              url data
            { result := .ok data, disk := saved.2, requests := [url] }

/-! ## A cache directory, a clock and a network used as examples -/

/-- A time as two numbers: the sign and the absolute value. -/
def encodeTime (t : Int) : Bytes := [if t < 0 then 1 else 0, t.natAbs]

/-- The time written by `encodeTime`. -/
def decodeTime (sign magnitude : Nat) : Int :=
  if sign = 1 then -(magnitude : Int) else (magnitude : Int)

/-- A library for the examples: the key of a URL is made of its letters and digits,
and the metadata is written as the two times followed by the runes of the URL. -/
def exampleLibrary : CacheLibrary :=
  { sha256hex := fun url => String.mk (url.data.filter Char.isAlphanum),
    marshal := fun m =>
      some (encodeTime m.CachedAt ++ encodeTime m.Expiration ++ m.URL.data.map Char.toNat),
    unmarshal := fun bytes =>
      match bytes with
      | s₁ :: n₁ :: s₂ :: n₂ :: rest =>
        some { URL := String.mk (rest.map Char.ofNat), CachedAt := decodeTime s₁ n₁,
               Expiration := decodeTime s₂ n₂ }
      | _ => none }

/-- The cache of the examples, with a time to live of 1000 nanoseconds. -/
def exampleCache : Cache := NewCache "/cache" 1000

/-- The URL of the examples. -/
def exampleURL : String := "https://example.org/api.json"

/-- A directory that exists and holds no file. -/
def emptyDisk : Disk := { available := true, files := fun _ => none }

/-- A directory that `os.MkdirAll` cannot create. -/
def noDisk : Disk := { available := false, files := fun _ => none }

/-- A directory that holds an entry for the URL of the examples: the bytes 1, 2, 3,
cached at the time 0 with the expiration 100. -/
def diskWithEntry : Disk :=
  { available := true,
    files := fun p =>
      if p = exampleCache.cacheFile exampleLibrary exampleURL then some [1, 2, 3]
      else if p = exampleCache.metaFile exampleLibrary exampleURL then
        exampleLibrary.marshal { URL := exampleURL, CachedAt := 0, Expiration := 100 }
      else none }

/-- A world in which the clock reads `now` at every call, the network answers
every request with `response`, and every write succeeds. -/
def envAt (now : Int) (response : Option HTTPResponse) : Env :=
  { timeAtLoad := now, timeAtCachedAt := now, timeAtExpiration := now,
    get := fun _ => response, writeFails := fun _ => none }

/-- The world of `envAt` in which every write fails and leaves no readable file. -/
def envReadOnly (now : Int) (response : Option HTTPResponse) : Env :=
  { envAt now response with writeFails := fun _ => some none }

/-- The answer 200 with the body 7, 8, 9. -/
def okResponse : HTTPResponse := { StatusCode := 200, Body := some [7, 8, 9] }

/-! ## The words of the specification on the cache -/

/-- The fresh readable entry that the directory holds for a URL, if any: the
metadata can be read and parsed, the current time is not after the expiration,
and the data can be read. -/
def freshEntry (c : Cache) (lib : CacheLibrary) (env : Env) (disk : Disk) (url : String) :
    Option Bytes :=
  match disk.ReadFile (c.metaFile lib url) with
  | none => none
  | some metaData =>
    match lib.unmarshal metaData with
    | none => none
    | some meta =>
      if env.timeAtLoad ≤ meta.Expiration then disk.ReadFile (c.cacheFile lib url) else none

/-- A transport failure of the live download: `http.Get` fails, or reading the
body fails. -/
def transportFails (env : Env) (url : String) : Bool :=
  match env.get url with
  | none => true
  | some resp => resp.Body.isNone

/-- A download that fails in the sense of the specification: the transport fails
or the status is not 2xx. -/
def downloadFails2xx (env : Env) (url : String) : Bool :=
  transportFails env url ||
  match env.get url with
  | none => true
  | some resp => !(decide (200 ≤ resp.StatusCode) && decide (resp.StatusCode < 300))

/-- A download that fails in the sense of the code: the transport fails or the
status is not 200. -/
def downloadFails200 (env : Env) (url : String) : Bool :=
  transportFails env url ||
  match env.get url with
  | none => true
  | some resp => decide (resp.StatusCode ≠ 200)

/-- A document that declares the root path only. -/
def rootOnlySpec : T := specOfPaths [("/", getItem)]

/-- A document without info block, paths, tags and servers, as
`loader.LoadFromData` returns it for the text `openapi: 3.0.0` followed by an
empty `paths` object. -/
def noInfoSpec : T := { specOfPaths [] with Info := none }

/-- A document whose only template has the variable `path*`. -/
def filesSpec : T := specOfPaths [("/files/{path*}", getItem)]

/-- A document with two templates that differ in the name of the variable only:
the one declares GET, the other POST. -/
def twoTemplatesSpec : T :=
  specOfPaths [("/users/{id}", getItem),
               ("/users/{name}", { emptyItem with Post := some (plainOperation "create") })]

/-- An operation that declares the responses 200 and 404. -/
def respondingOperation : Operation :=
  { plainOperation "read" with
    Responses := some [("200", { Description := some "found", Content := none }),
                       ("404", { Description := none, Content := none })] }

/-- A document whose `/pets` declares GET with the responses 200 and 404. -/
def petsSpec : T := specOfPaths [("/pets", { emptyItem with Get := some respondingOperation })]

/-! ## Shallow schemas -/

/-- The check `shallow heap n schemaRef`: the schema under `schemaRef` is free of
references, and each of its nodes that has properties or an items schema lies
less than `n` levels below it. A nil pointer and a node without value count as
nodes without properties and without items. -/
def shallow (heap : Addr → Schema) : Nat → Option SchemaRef → Bool
  | _, none => true
  | 0, some schemaRef =>
    schemaRef.Ref == "" &&
    (match schemaRef.Value with
     | none => true
     | some addr => (heap addr).Properties.isEmpty && (heap addr).Items.isNone)
  | n + 1, some schemaRef =>
    schemaRef.Ref == "" &&
    (match schemaRef.Value with
     | none => true
     | some addr =>
       (heap addr).Properties.all (fun prop => shallow heap n prop.2) &&
       (match (heap addr).Items with
        | none => true
        | some items => shallow heap n (some items)))

/-- The check `fullyExpanded n v`: the rendered schema node `v` holds no
placeholder. Down to `n` levels below it every field `properties` is an object of
rendered nodes and every field `items` is a rendered node, and the nodes at the
level `n` have neither field. -/
def fullyExpanded : Nat → JVal → Bool
  | 0, .obj fields =>
    (GoMap.get fields "properties").isNone && (GoMap.get fields "items").isNone
  | n + 1, .obj fields =>
    (match GoMap.get fields "properties" with
     | some (.obj props) => props.all (fun p => fullyExpanded n p.2)
     | some _ => false
     | none => true) &&
    (match GoMap.get fields "items" with
     | some x => !isPlaceholder x && fullyExpanded n x
     | none => true)
  | _, _ => true

theorem splitRunes_head (sep : Char) (l : List Char) :
    ∃ rest, splitRunes sep l = l.takeWhile (fun c => c ≠ sep) :: rest := by
  induction l with
  | nil => exact ⟨[], by simp [splitRunes]⟩
  | cons c cs ih =>
    obtain ⟨rest, hrest⟩ := ih
    by_cases hc : c = sep
    · exact ⟨splitRunes sep cs, by simp [splitRunes, hc]⟩
    · exact ⟨rest, by simp [splitRunes, hc, hrest]⟩

theorem Split_slash (s : String) : ∃ rest, Split s '/' = first_segment s :: rest := by
  obtain ⟨rest, hrest⟩ := splitRunes_head '/' s.data
  exact ⟨rest.map String.mk, by simp [Split, hrest, first_segment]⟩

theorem Split_lbrace (s : String) :
    ∃ rest, Split s lbrace = strip_from_first_brace s :: rest := by
  obtain ⟨rest, hrest⟩ := splitRunes_head lbrace s.data
  exact ⟨rest.map String.mk, by simp [Split, hrest, strip_from_first_brace]⟩

theorem TrimPrefix_slash (p : String) : TrimPrefix p "/" = strip_leading_slash p := by
  obtain ⟨l⟩ := p
  cases l with
  | nil => simp [TrimPrefix, HasPrefix, strip_leading_slash, List.isPrefixOf]
  | cons c cs =>
    by_cases hc : c = '/'
    · subst hc
      simp [TrimPrefix, HasPrefix, strip_leading_slash, List.isPrefixOf]
    · simp [TrimPrefix, HasPrefix, strip_leading_slash, List.isPrefixOf, hc]
      intro h; exact absurd h.symm hc

/-- The category computed at lines 18 to 24, in the words of the specification. -/
theorem categoryOfPath_eq (p : String) :
    categoryOfPath p =
      if first_segment (strip_leading_slash p) = "" then none else some (category p) := by
  unfold categoryOfPath category
  rw [TrimPrefix_slash]
  obtain ⟨rest, hrest⟩ := Split_slash (strip_leading_slash p)
  obtain ⟨rest2, hrest2⟩ := Split_lbrace (first_segment (strip_leading_slash p))
  simp only [hrest, hrest2]
  by_cases h : first_segment (strip_leading_slash p) = ""
  · simp [h]
  · simp [h]

/-! ## C1 -/

/-- C1, as stated, fails: for the root path `/` neither handler computes a
category (the first segment is empty and the guard skips the path), while
`strip_from_first_brace (first_segment (strip_leading_slash "/"))` is the empty
string. -/
theorem category_counterexample :
    categoryOfPath "/" = none ∧ pathCategoryOfPath "/" = none ∧
    strip_from_first_brace (first_segment (strip_leading_slash "/")) = "" := by
  decide

/-- C1, amended: for every path template `p` whose first segment, after one
leading "/" is removed, is not empty, the category that `listCategoriesHandler`
and `listEndpointsHandler` compute for `p` is
`strip_from_first_brace (first_segment (strip_leading_slash p))`; for a template
whose first segment is empty neither handler computes a category. So both
handlers compute the same category for the same path, and `/users/{id}/posts` has
the category `users`. -/
theorem category_is_stripped_first_segment (p : String) :
    (first_segment (strip_leading_slash p) ≠ "" →
      categoryOfPath p =
        some (strip_from_first_brace (first_segment (strip_leading_slash p))) ∧
      pathCategoryOfPath p =
        some (strip_from_first_brace (first_segment (strip_leading_slash p)))) ∧
    (first_segment (strip_leading_slash p) = "" →
      categoryOfPath p = none ∧ pathCategoryOfPath p = none) ∧
    pathCategoryOfPath p = categoryOfPath p ∧
    categoryOfPath "/users/{id}/posts" = some "users" := by
  refine ⟨?_, ?_, rfl, by decide⟩
  · intro h
    rw [show pathCategoryOfPath p = categoryOfPath p from rfl, categoryOfPath_eq, if_neg h]
    exact ⟨rfl, rfl⟩
  · intro h
    rw [show pathCategoryOfPath p = categoryOfPath p from rfl, categoryOfPath_eq, if_pos h]
    exact ⟨rfl, rfl⟩

/-- C1, amended, at `/users/{id}`: the first segment is `users`, and so is the
category in both handlers. -/
theorem category_is_stripped_first_segment_witness :
    first_segment (strip_leading_slash "/users/{id}") ≠ "" ∧
    categoryOfPath "/users/{id}" = some "users" ∧
    pathCategoryOfPath "/users/{id}" = some "users" :=
  ⟨by decide, (category_is_stripped_first_segment "/users/{id}").1 (by decide)⟩

/-! ## Go maps -/

theorem get_eq_some_of_mem {α : Type} {m : GoMap α} (hm : NodupKeys m) {k : String} {v : α}
    (h : (k, v) ∈ m) : m.get k = some v := by
  induction m with
  | nil => cases h
  | cons e rest ih =>
    obtain ⟨k', v'⟩ := e
    simp only [NodupKeys, List.map_cons, List.nodup_cons] at hm
    rcases List.mem_cons.1 h with h | h
    · cases h; simp [GoMap.get]
    · have hne : k' ≠ k := by
        rintro rfl
        exact hm.1 (List.mem_map_of_mem Prod.fst h)
      simp [GoMap.get, hne, ih hm.2 h]

theorem mem_of_get_eq_some {α : Type} {m : GoMap α} {k : String} {v : α}
    (h : m.get k = some v) : (k, v) ∈ m := by
  induction m with
  | nil => cases h
  | cons e rest ih =>
    obtain ⟨k', v'⟩ := e
    by_cases hk : k' = k
    · subst hk
      simp [GoMap.get] at h
      simp [h]
    · simp [GoMap.get, hk] at h
      exact List.mem_cons_of_mem _ (ih h)

theorem get_eq_none_iff {α : Type} {m : GoMap α} {k : String} :
    m.get k = none ↔ k ∉ m.map Prod.fst := by
  induction m with
  | nil => simp [GoMap.get]
  | cons e rest ih =>
    obtain ⟨k', v'⟩ := e
    by_cases hk : k' = k
    · simp [GoMap.get, hk]
    · simp only [GoMap.get, hk, if_false, ih, List.map_cons, List.mem_cons]
      constructor
      · rintro h (h' | h')
        · exact hk h'.symm
        · exact h h'
      · intro h h'
        exact h (Or.inr h')

/-- Two maps with the same lookups hold the same entries. -/
theorem perm_of_get_eq {α : Type} {m m' : GoMap α} (hm : NodupKeys m) (hm' : NodupKeys m')
    (h : ∀ k, m.get k = m'.get k) : m.Perm m' := by
  classical
  have hinj : ∀ {l : GoMap α}, NodupKeys l → l.Nodup := fun hl => List.Nodup.of_map _ hl
  refine (List.perm_ext_iff_of_nodup (hinj hm) (hinj hm')).2 ?_
  rintro ⟨k, v⟩
  constructor
  · intro hmem
    exact mem_of_get_eq_some ((h k).symm.trans (get_eq_some_of_mem hm hmem))
  · intro hmem
    exact mem_of_get_eq_some ((h k).trans (get_eq_some_of_mem hm' hmem))

theorem incr_keys (m : GoMap Int) (k : String) :
    (m.incr k).map Prod.fst = if k ∈ m.map Prod.fst then m.map Prod.fst else m.map Prod.fst ++ [k] := by
  induction m with
  | nil => simp [GoMap.incr]
  | cons e rest ih =>
    obtain ⟨k', n⟩ := e
    by_cases hk : k' = k
    · subst hk; simp [GoMap.incr]
    · have hk' : ¬ k = k' := fun h => hk h.symm
      simp only [GoMap.incr, hk, if_false, List.map_cons, ih, List.mem_cons, hk', false_or]
      split <;> simp

theorem incr_nodupKeys {m : GoMap Int} (hm : NodupKeys m) (k : String) :
    NodupKeys (m.incr k) := by
  unfold NodupKeys at *
  rw [incr_keys]
  split
  · exact hm
  · rename_i h
    rw [List.nodup_append]
    refine ⟨hm, List.nodup_singleton k, ?_⟩
    intro a ha hb
    simp at hb
    subst hb
    exact h ha

theorem incr_get (m : GoMap Int) (k k' : String) :
    (m.incr k).get k' = if k = k' then some ((m.get k).getD 0 + 1) else m.get k' := by
  induction m with
  | nil =>
    by_cases h : k = k' <;> simp [GoMap.incr, GoMap.get, h]
  | cons e rest ih =>
    obtain ⟨k₀, n⟩ := e
    by_cases hk : k₀ = k
    · subst hk
      by_cases h : k₀ = k' <;> simp [GoMap.incr, GoMap.get, h]
    · by_cases h : k = k'
      · subst h
        simp [GoMap.incr, GoMap.get, hk, ih]
      · by_cases h0 : k₀ = k'
        · subst h0
          simp [GoMap.incr, GoMap.get, hk, h]
        · simp [GoMap.incr, GoMap.get, hk, h, h0, ih]

/-! ## The tally of `listCategoriesHandler` -/

/-- One round of the first loop of `listCategoriesHandler`. -/
theorem tallyCategories_cons (acc : GoMap Int) (e : String × PathItem) (l : GoMap PathItem) :
    List.foldl (fun categoriesMap entry =>
        match categoryOfPath entry.1 with
        | some category => GoMap.incr categoriesMap category
        | none => categoriesMap) acc (e :: l) =
    List.foldl (fun categoriesMap entry =>
        match categoryOfPath entry.1 with
        | some category => GoMap.incr categoriesMap category
        | none => categoriesMap)
      (match categoryOfPath e.1 with
        | some category => GoMap.incr acc category
        | none => acc) l := rfl

theorem tally_fold_nodupKeys (l : GoMap PathItem) :
    ∀ acc : GoMap Int, NodupKeys acc →
      NodupKeys (List.foldl (fun categoriesMap entry =>
        match categoryOfPath entry.1 with
        | some category => GoMap.incr categoriesMap category
        | none => categoriesMap) acc l) := by
  induction l with
  | nil => intro acc h; exact h
  | cons e l ih =>
    intro acc h
    rw [tallyCategories_cons]
    apply ih
    cases categoryOfPath e.1 with
    | none => exact h
    | some c => exact incr_nodupKeys h c

theorem tally_fold_get (k : String) (l : GoMap PathItem) :
    ∀ acc : GoMap Int,
      (List.foldl (fun categoriesMap entry =>
        match categoryOfPath entry.1 with
        | some category => GoMap.incr categoriesMap category
        | none => categoriesMap) acc l).get k =
      if (l.filter (fun e => categoryOfPath e.1 = some k)).length = 0 then acc.get k
      else some ((acc.get k).getD 0 +
        ((l.filter (fun e => categoryOfPath e.1 = some k)).length : Int)) := by
  induction l with
  | nil => intro acc; simp
  | cons e l ih =>
    intro acc
    rw [tallyCategories_cons, ih]
    cases hc : categoryOfPath e.1 with
    | none =>
      rw [List.filter_cons_of_neg (by simp [hc])]
    | some c =>
      by_cases hk : c = k
      · subst hk
        rw [List.filter_cons_of_pos (by simp [hc])]
        simp only [incr_get, if_true, List.length_cons, Option.getD_some]
        split
        · rename_i h0
          simp [h0]
        · simp only [Nat.succ_ne_zero, if_false, Nat.cast_add, Nat.cast_one]
          congr 1
          omega
      · rw [List.filter_cons_of_neg (by simp [hc, hk])]
        simp [incr_get, hk]

theorem tallyCategories_nodupKeys (l : GoMap PathItem) : NodupKeys (tallyCategories l) :=
  tally_fold_nodupKeys l [] List.nodup_nil

/-- The tally holds, for each category, the number of visited paths that the
handler puts in it, and holds nothing for a category without path. -/
theorem tallyCategories_get (k : String) (l : GoMap PathItem) :
    (tallyCategories l).get k =
      if (l.filter (fun e => categoryOfPath e.1 = some k)).length = 0 then none
      else some ((l.filter (fun e => categoryOfPath e.1 = some k)).length : Int) := by
  unfold tallyCategories
  rw [tally_fold_get]
  simp [GoMap.get]

theorem tallyCategories_perm {l l' : GoMap PathItem} (h : l.Perm l') :
    (tallyCategories l).Perm (tallyCategories l') := by
  apply perm_of_get_eq (tallyCategories_nodupKeys l) (tallyCategories_nodupKeys l')
  intro k
  rw [tallyCategories_get, tallyCategories_get, (h.filter _).length_eq]

/-! ## `SortMapsByName` -/

theorem not_lessByName_total (a b : GoMap JVal) : ¬ lessByName b a ∨ ¬ lessByName a b := by
  unfold lessByName strLess
  rcases le_total (nameOf a).data (nameOf b).data with h | h
  · exact Or.inl (not_lt.2 h)
  · exact Or.inr (not_lt.2 h)

theorem not_lessByName_trans (a b c : GoMap JVal) (hab : ¬ lessByName b a)
    (hbc : ¬ lessByName c b) : ¬ lessByName c a := by
  unfold lessByName strLess at *
  exact not_lt.2 (le_trans (not_lt.1 hab) (not_lt.1 hbc))

theorem SortMapsByName_perm (items : List (GoMap JVal)) : (SortMapsByName items).Perm items :=
  List.perm_insertionSort _ items

/-- After `SortMapsByName` no element is followed by one with a smaller name. -/
theorem SortMapsByName_sorted (items : List (GoMap JVal)) :
    (SortMapsByName items).Pairwise (fun a b => ¬ lessByName b a) :=
  @List.sorted_insertionSort _ (fun a b => ¬ lessByName b a) _
    ⟨not_lessByName_total⟩ ⟨not_lessByName_trans⟩ items

/-- With pairwise distinct names the sorted slice ascends strictly. -/
theorem SortMapsByName_strict (items : List (GoMap JVal))
    (hnd : (items.map nameOf).Nodup) : (SortMapsByName items).Pairwise lessByName := by
  have hnd' : ((SortMapsByName items).map nameOf).Nodup :=
    ((SortMapsByName_perm items).map nameOf).nodup_iff.2 hnd
  have hne : (SortMapsByName items).Pairwise (fun a b => nameOf a ≠ nameOf b) :=
    List.pairwise_map.1 hnd'
  refine ((SortMapsByName_sorted items).and hne).imp ?_
  intro a b h
  unfold lessByName strLess at *
  rcases lt_or_eq_of_le (not_lt.1 h.1) with hlt | heq
  · exact hlt
  · exact absurd (String.ext heq) h.2

/-- Slices with the same elements and pairwise distinct names sort to the same
slice: the outcome of `sort.Slice` does not depend on the order it starts from. -/
theorem SortMapsByName_congr {items items' : List (GoMap JVal)} (h : items.Perm items')
    (hnd : (items.map nameOf).Nodup) : SortMapsByName items = SortMapsByName items' := by
  have hnd' : (items'.map nameOf).Nodup := (h.map nameOf).nodup_iff.1 hnd
  have hanti : IsAntisymm (GoMap JVal) lessByName :=
    ⟨fun a b hab hba => absurd hba (by
      unfold lessByName strLess at *
      exact lt_asymm hab)⟩
  exact @List.eq_of_perm_of_sorted _ lessByName hanti _ _
    (((SortMapsByName_perm items).trans h).trans (SortMapsByName_perm items').symm)
    (SortMapsByName_strict items hnd) (SortMapsByName_strict items' hnd')

theorem nameOf_categoryEntry (e : String × Int) : nameOf (categoryEntry e) = e.1 := by
  simp [nameOf, categoryEntry, GoMap.get]

theorem map_nameOf_categoryEntry (m : GoMap Int) :
    (m.map categoryEntry).map nameOf = m.map Prod.fst := by
  simp [List.map_map, Function.comp_def, nameOf_categoryEntry]

/-! ## `listCategoriesHandler` and the order of `range` -/

/-- The slice that `listCategoriesHandler` sorts does not depend on the order in
which `range` visits the two maps. -/
theorem sorted_categories_order (ord : RangeOrder) (paths : GoMap PathItem) :
    SortMapsByName ((ord.visit (tallyCategories (ord.visit paths))).map categoryEntry) =
      SortMapsByName ((tallyCategories paths).map categoryEntry) := by
  have hperm : (ord.visit (tallyCategories (ord.visit paths))).Perm (tallyCategories paths) :=
    (ord.perm _).trans (tallyCategories_perm (ord.perm paths))
  apply SortMapsByName_congr (hperm.map categoryEntry)
  rw [map_nameOf_categoryEntry]
  exact (hperm.map Prod.fst).nodup_iff.2 (tallyCategories_nodupKeys paths)

/-- The result of `listCategoriesHandler` is the same for every order of `range`. -/
theorem listCategoriesHandler_order (ord : RangeOrder) (spec : T) (request : CallToolRequest) :
    listCategoriesHandler ord spec request =
      if (tallyCategories spec.Paths).length = 0 then
        .text "No categories found in the OpenAPI specification"
      else .json (.arr ((SortMapsByName ((tallyCategories spec.Paths).map categoryEntry)).map
        JVal.obj)) := by
  unfold listCategoriesHandler JSONResponse
  simp only [sorted_categories_order, (tallyCategories_perm (ord.perm spec.Paths)).length_eq]

/-! ## C2 and C3: the array of `listCategoriesHandler` -/

/-- The tally in the order in which `listCategoriesHandler` returns it. -/
theorem SortMapsByName_categoryEntry (m : GoMap Int) :
    SortMapsByName (m.map categoryEntry) =
      (m.insertionSort (fun a b => ¬ strLess b.1 a.1)).map categoryEntry := by
  unfold SortMapsByName sortSlice
  symm
  apply List.map_insertionSort
  intro a _ b _
  simp [lessByName, nameOf_categoryEntry]

/-- The array that `listCategoriesHandler` returns: the entries of the tally of
the declared paths, sorted by name. -/
theorem listCategoriesHandler_array (ord : RangeOrder) (spec : T) (request : CallToolRequest)
    (out : List JVal) (h : listCategoriesHandler ord spec request = .json (.arr out)) :
    out = (((tallyCategories spec.Paths).insertionSort (fun a b => ¬ strLess b.1 a.1)).map
      categoryEntry).map JVal.obj := by
  rw [listCategoriesHandler_order] at h
  split at h
  · cases h
  · rw [SortMapsByName_categoryEntry] at h
    injection h with h
    injection h with h
    exact h.symm

/-- The result of `listCategoriesHandler` on the example of section 8. -/
theorem listCategoriesHandler_usersOrders (ord : RangeOrder) (a b c : PathItem)
    (request : CallToolRequest) :
    listCategoriesHandler ord (specOfPaths (usersOrdersPaths a b c)) request =
      .json (.arr [.obj [("name", .str "orders"), ("endpoint_count", .int 1)],
                   .obj [("name", .str "users"), ("endpoint_count", .int 2)]]) := by
  rw [listCategoriesHandler_order]
  rfl

/-- The paths that `listCategoriesHandler` puts in the category `k`, in the words
of the specification: the first segment is not empty and the category is `k`. -/
theorem categoryOfPath_eq_some_iff (p k : String) :
    categoryOfPath p = some k ↔
      first_segment (strip_leading_slash p) ≠ "" ∧ category p = k := by
  rw [categoryOfPath_eq]
  split
  · rename_i h
    simp [h]
  · rename_i h
    simp [h]

/-- C2, as stated, fails: on the templates `/` and `/{id}` the handler returns the
one entry `{"", 1}`, while two declared templates have the category "". -/
theorem list_categories_count_counterexample :
    listCategoriesHandler .asListed (specOfPaths rootAndVariablePaths) [] =
      .json (.arr [.obj [("name", .str ""), ("endpoint_count", .int 1)]]) ∧
    ((specOfPaths rootAndVariablePaths).Paths.filter (fun q => category q.1 = "")).length = 2 :=
  ⟨rfl, by decide⟩

/-- C2, amended: each entry `{name, endpoint_count}` of the array that
`listCategoriesHandler` returns has `endpoint_count` equal to the number of
declared path templates with a non-empty first segment whose category is exactly
`name`, and no two entries share a name; for the paths `/users`, `/users/{id}`,
`/orders` the result is `[{orders, 1}, {users, 2}]`, whatever the operations. -/
theorem list_categories_counts (ord : RangeOrder) (spec : T) (request : CallToolRequest) :
    (∀ out, listCategoriesHandler ord spec request = .json (.arr out) →
      ∃ entries : GoMap Int,
        out = entries.map
          (fun e => JVal.obj [("name", .str e.1), ("endpoint_count", .int e.2)]) ∧
        (entries.map Prod.fst).Nodup ∧
        ∀ e ∈ entries, e.2 = ((spec.Paths.filter (fun q =>
          decide (first_segment (strip_leading_slash q.1) ≠ "" ∧ category q.1 = e.1))).length
            : Int)) ∧
    (∀ a b c, listCategoriesHandler ord (specOfPaths (usersOrdersPaths a b c)) request =
      .json (.arr [.obj [("name", .str "orders"), ("endpoint_count", .int 1)],
                   .obj [("name", .str "users"), ("endpoint_count", .int 2)]])) := by
  refine ⟨?_, fun a b c => listCategoriesHandler_usersOrders ord a b c request⟩
  intro out h
  have hperm := List.perm_insertionSort (fun a b : String × Int => ¬ strLess b.1 a.1)
    (tallyCategories spec.Paths)
  refine ⟨(tallyCategories spec.Paths).insertionSort (fun a b => ¬ strLess b.1 a.1), ?_, ?_, ?_⟩
  · rw [listCategoriesHandler_array ord spec request out h, List.map_map]
    rfl
  · exact (hperm.map Prod.fst).nodup_iff.2 (tallyCategories_nodupKeys spec.Paths)
  · rintro ⟨k, n⟩ he
    have hget := get_eq_some_of_mem (tallyCategories_nodupKeys spec.Paths) (hperm.mem_iff.1 he)
    rw [tallyCategories_get] at hget
    have hfilter : spec.Paths.filter (fun e => decide (categoryOfPath e.1 = some k)) =
        spec.Paths.filter (fun q =>
          decide (first_segment (strip_leading_slash q.1) ≠ "" ∧ category q.1 = k)) := by
      apply List.filter_congr
      intro q _
      exact decide_eq_decide.2 (categoryOfPath_eq_some_iff q.1 k)
    rw [hfilter] at hget
    split at hget
    · cases hget
    · exact (Option.some.inj hget).symm

/-- C2, amended, on the templates `/` and `/{id}`: the array has the one entry
`{"", 1}`, and one declared template with a non-empty first segment, `/{id}`,
has the category "". -/
theorem list_categories_counts_witness :
    ∃ entries : GoMap Int,
      [JVal.obj [("name", .str ""), ("endpoint_count", .int 1)]] = entries.map
        (fun e => JVal.obj [("name", .str e.1), ("endpoint_count", .int e.2)]) ∧
      (entries.map Prod.fst).Nodup ∧
      ∀ e ∈ entries, e.2 = (((specOfPaths rootAndVariablePaths).Paths.filter (fun q =>
        decide (first_segment (strip_leading_slash q.1) ≠ "" ∧ category q.1 = e.1))).length
          : Int) :=
  (list_categories_counts .asListed (specOfPaths rootAndVariablePaths) []).1 _ rfl

/-- C3: whenever `listCategoriesHandler` returns an array, its entries ascend
strictly by name in the ordinal order of strings. -/
theorem list_categories_sorted (ord : RangeOrder) (spec : T) (request : CallToolRequest)
    (out : List JVal) (h : listCategoriesHandler ord spec request = .json (.arr out)) :
    ∃ entries : GoMap Int,
      out = entries.map
        (fun e => JVal.obj [("name", .str e.1), ("endpoint_count", .int e.2)]) ∧
      entries.Pairwise (fun a b => a.1 < b.1) := by
  have hperm := List.perm_insertionSort (fun a b : String × Int => ¬ strLess b.1 a.1)
    (tallyCategories spec.Paths)
  refine ⟨(tallyCategories spec.Paths).insertionSort (fun a b => ¬ strLess b.1 a.1), ?_, ?_⟩
  · rw [listCategoriesHandler_array ord spec request out h, List.map_map]
    rfl
  · have hstrict := SortMapsByName_strict ((tallyCategories spec.Paths).map categoryEntry)
      (by rw [map_nameOf_categoryEntry]; exact tallyCategories_nodupKeys spec.Paths)
    rw [SortMapsByName_categoryEntry] at hstrict
    refine (List.pairwise_map.1 hstrict).imp ?_
    intro a b hab
    rw [String.lt_iff_toList_lt]
    simpa [lessByName, nameOf_categoryEntry, strLess] using hab

/-- C3 on the paths `/users`, `/users/{id}`, `/orders`, visited last to first: the
array is `[{orders, 1}, {users, 2}]`, and "orders" precedes "users". -/
theorem list_categories_sorted_witness :
    ∃ entries : GoMap Int,
      [JVal.obj [("name", .str "orders"), ("endpoint_count", .int 1)],
       JVal.obj [("name", .str "users"), ("endpoint_count", .int 2)]] = entries.map
        (fun e => JVal.obj [("name", .str e.1), ("endpoint_count", .int e.2)]) ∧
      entries.Pairwise (fun a b => a.1 < b.1) :=
  list_categories_sorted .reversed (specOfPaths (usersOrdersPaths getItem getItem getItem)) [] _
    rfl

/-! ## The words of the specification and the library functions -/

theorem filterMap_declared_cons (method : String) (operation : Option Operation)
    (l : List (String × Option Operation)) :
    ((method, operation) :: l).filterMap
        (fun declared => declared.2.map (fun op => (declared.1, op))) =
      opEntry method operation ++
        l.filterMap (fun declared => declared.2.map (fun op => (declared.1, op))) := by
  cases operation <;> rfl

/-- The kin-openapi `Operations()` holds the declared operations. -/
theorem Operations_eq (pathItem : PathItem) :
    pathItem.Operations = declared_operations pathItem := by
  unfold PathItem.Operations declared_operations
  simp only [filterMap_declared_cons, List.filterMap_nil, List.append_nil, List.append_assoc]

theorem get_Operations_eq_none_iff (pathItem : PathItem) (m : String) :
    pathItem.Operations.get m = none ↔
      ∀ operation, (m, operation) ∉ declared_operations pathItem := by
  rw [get_eq_none_iff, ← Operations_eq]
  constructor
  · intro h operation hmem
    exact h (List.mem_map.2 ⟨(m, operation), hmem, rfl⟩)
  · intro h hmem
    obtain ⟨⟨k, operation⟩, hmem', hk⟩ := List.mem_map.1 hmem
    cases hk
    exact h operation hmem'

/-! ## C4: the selection of `listEndpointsHandler` -/

theorem get_append {α : Type} (a b : GoMap α) (k : String) :
    GoMap.get (a ++ b) k = match a.get k with
      | some v => some v
      | none => b.get k := by
  induction a with
  | nil => simp [GoMap.get]
  | cons e rest ih =>
    obtain ⟨k', v⟩ := e
    by_cases hk : k' = k
    · simp [GoMap.get, hk]
    · simp [GoMap.get, hk, ih]

theorem get_opEntry (method : String) (operation : Option Operation) (k : String) :
    (opEntry method operation).get k = if method = k then operation else none := by
  cases operation <;> simp [opEntry, GoMap.get]

/-- On the nine method names `GetOperation` returns what `Operations` holds. -/
theorem GetOperation_standard (pathItem : PathItem) (m : String) (hm : m ∈ standardMethods) :
    pathItem.GetOperation m = .ok (pathItem.Operations.get m) := by
  simp only [standardMethods, List.mem_cons, List.mem_singleton, List.not_mem_nil, or_false] at hm
  rcases hm with h | h | h | h | h | h | h | h | h <;> subst h <;>
    simp [PathItem.GetOperation, PathItem.Operations, get_append, get_opEntry] <;>
    first
    | (cases pathItem.Connect <;> rfl) | (cases pathItem.Delete <;> rfl)
    | (cases pathItem.Get <;> rfl) | (cases pathItem.Head <;> rfl)
    | (cases pathItem.Options <;> rfl) | (cases pathItem.Patch <;> rfl)
    | (cases pathItem.Post <;> rfl) | (cases pathItem.Put <;> rfl)

/-- Outside the nine method names `GetOperation` panics. -/
theorem GetOperation_other (pathItem : PathItem) (m : String) (hm : m ∉ standardMethods) :
    pathItem.GetOperation m = .error ("unsupported HTTP method \"" ++ m ++ "\"") := by
  simp only [standardMethods, List.mem_cons, List.mem_singleton, List.not_mem_nil, or_false,
    not_or] at hm
  obtain ⟨h1, h2, h3, h4, h5, h6, h7, h8, h9⟩ := hm
  simp [PathItem.GetOperation, h1, h2, h3, h4, h5, h6, h7, h8, h9]

theorem RequireString_path (path method : String) :
    RequireString [("path", JVal.str path), ("method", JVal.str method)] "path" = .ok path := by
  simp [RequireString, GoMap.get]

theorem RequireString_method (path method : String) :
    RequireString [("path", JVal.str path), ("method", JVal.str method)] "method" =
      .ok method := by
  simp [RequireString, GoMap.get]

/-- The template under `key` is found. -/
theorem Find_of_get (ord : RangeOrder) (paths : GoMap PathItem) (key : String)
    (pathItem : PathItem) (h : paths.get key = some pathItem) :
    Find ord paths key = some pathItem := by
  simp [Find, h]

/-- What `Find` returns is declared under a template with the normal form of the key. -/
theorem Find_some (ord : RangeOrder) (paths : GoMap PathItem) (key : String)
    (pathItem : PathItem) (h : Find ord paths key = some pathItem) :
    ∃ k, (k, pathItem) ∈ paths ∧ normalizeTemplatedPath k = normalizeTemplatedPath key := by
  unfold Find at h
  cases hget : paths.get key with
  | some item =>
    rw [hget] at h
    cases h
    exact ⟨key, mem_of_get_eq_some hget, rfl⟩
  | none =>
    rw [hget] at h
    simp only [Option.map_eq_some'] at h
    obtain ⟨⟨k, item⟩, hfind, hitem⟩ := h
    cases hitem
    have hmem := List.mem_of_find?_eq_some hfind
    have hp := List.find?_some hfind
    simp only [Bool.and_eq_true, beq_iff_eq] at hp
    exact ⟨k, (ord.perm paths).mem_iff.1 hmem, Prod.ext hp.2 hp.1⟩

/-- `Find` fails exactly when no declared template has the normal form of the key. -/
theorem Find_eq_none_iff (ord : RangeOrder) (paths : GoMap PathItem) (key : String) :
    Find ord paths key = none ↔
      ∀ q ∈ paths, normalizeTemplatedPath q.1 ≠ normalizeTemplatedPath key := by
  constructor
  · intro h q hq hnorm
    unfold Find at h
    cases hget : paths.get key with
    | some item => rw [hget] at h; cases h
    | none =>
      rw [hget] at h
      simp only [Option.map_eq_none', List.find?_eq_none] at h
      have := h q ((ord.perm paths).mem_iff.2 hq)
      simp [hnorm] at this
  · intro h
    cases hfind : Find ord paths key with
    | none => rfl
    | some item =>
      obtain ⟨k, hk, hnorm⟩ := Find_some ord paths key item hfind
      exact absurd hnorm (h (k, item) hk)

/-- The result of `showEndpointHandler` on two string arguments, by the outcome of
the two lookups. -/
theorem showEndpointHandler_eq (u : UnicodeTables) (ord : RangeOrder) (spec : T)
    (path method : String) :
    showEndpointHandler u ord spec [("path", .str path), ("method", .str method)] =
      match Find ord spec.Paths path with
      | none => .ok (.error .NotFound ("Path not found: " ++ path))
      | some pathItem =>
        match pathItem.GetOperation (ToUpper u method) with
        | .error panicValue => .error panicValue
        | .ok none =>
          .ok (.error .NotFound ("Method " ++ method ++ " not found for path: " ++ path))
        | .ok (some operation) =>
          .ok (.json (.obj (endpointDetail u spec.heap path method operation))) := by
  unfold showEndpointHandler
  rw [RequireString_path, RequireString_method]
  rfl

/-- The lookup in a map with one template. -/
theorem Find_single (ord : RangeOrder) (k key : String) (pathItem : PathItem)
    (h : normalizeTemplatedPath k = normalizeTemplatedPath key) :
    Find ord [(k, pathItem)] key = some pathItem := by
  unfold Find
  by_cases hk : k = key
  · simp [GoMap.get, hk]
  · have hvisit : ord.visit [(k, pathItem)] = [(k, pathItem)] :=
      List.perm_singleton.1 (ord.perm [(k, pathItem)])
    simp [GoMap.get, hk, hvisit, h]

/-- C5, as stated, fails in two ways. On the document that declares GET and DELETE
on `/users/{id}`: the method "FOO" on the declared path gives no NotFound result
but the panic of `GetOperation`; and GET on `/users/{userId}`, a template the
document does not declare, succeeds, because `Find` ignores the names of the
variables. -/
theorem show_endpoint_not_found_counterexample :
    showEndpointHandler .ascii .asListed usersByIdSpec
        [("path", .str "/users/{id}"), ("method", .str "FOO")] =
      .error "unsupported HTTP method \"FOO\"" ∧
    usersByIdSpec.Paths.get "/users/{userId}" = none ∧
    showEndpointHandler .ascii .asListed usersByIdSpec
        [("path", .str "/users/{userId}"), ("method", .str "GET")] =
      .ok (.json (.obj
        [("path", .str "/users/{userId}"), ("method", .str "GET"), ("summary", .str "read"),
         ("description", .str ""), ("operationId", .str ""), ("tags", .null)])) :=
  ⟨rfl, rfl, rfl⟩

/-- C5, amended: `showEndpointHandler` returns a NotFound error when no declared
path template has the normal form of the path (the path with the names of its
variables erased), whatever the method string is; and, for a method string whose
upper-case form is one of the nine method names of `GetOperation`, when the
template that `Find` selects does not declare the method in upper case, so
whenever no declared template with the normal form of the path declares it. It
returns a JSON result only when a declared template with the normal form of the
path declares that method. The normal form keeps nothing of a variable: a path
with the variable `name` finds the template with the variable `path*`. On the
document with GET and DELETE on `/users/{id}`, `("/missing", "GET")` and
`("/users/{id}", "PATCH")` give NotFound. -/
theorem show_endpoint_not_found (u : UnicodeTables) (ord : RangeOrder) (spec : T)
    (path method : String) :
    ((∀ q ∈ spec.Paths, normalizeTemplatedPath q.1 ≠ normalizeTemplatedPath path) →
      showEndpointHandler u ord spec [("path", .str path), ("method", .str method)] =
        .ok (.error .NotFound ("Path not found: " ++ path))) ∧
    (ToUpper u method ∈ standardMethods →
      ∀ pathItem, Find ord spec.Paths path = some pathItem →
      (∀ operation, (ToUpper u method, operation) ∉ declared_operations pathItem) →
      showEndpointHandler u ord spec [("path", .str path), ("method", .str method)] =
        .ok (.error .NotFound ("Method " ++ method ++ " not found for path: " ++ path))) ∧
    (ToUpper u method ∈ standardMethods →
      (∀ q ∈ spec.Paths, normalizeTemplatedPath q.1 = normalizeTemplatedPath path →
        ∀ operation, (ToUpper u method, operation) ∉ declared_operations q.2) →
      ∃ msg, showEndpointHandler u ord spec [("path", .str path), ("method", .str method)] =
        .ok (.error .NotFound msg)) ∧
    (∀ v, showEndpointHandler u ord spec [("path", .str path), ("method", .str method)] =
        .ok (.json v) →
      ∃ k pathItem operation, (k, pathItem) ∈ spec.Paths ∧
        normalizeTemplatedPath k = normalizeTemplatedPath path ∧
        (ToUpper u method, operation) ∈ declared_operations pathItem) ∧
    normalizeTemplatedPath "/files/{path*}" = ("/files/{}", 1) ∧
    normalizeTemplatedPath "/users/{id}/orders/{orderId}" = ("/users/{}/orders/{}", 2) ∧
    showEndpointHandler u ord filesSpec [("path", .str "/files/{name}"), ("method", .str "GET")] =
      .ok (.json (.obj
        [("path", .str "/files/{name}"), ("method", .str "GET"), ("summary", .str "read"),
         ("description", .str ""), ("operationId", .str ""), ("tags", .null)])) ∧
    showEndpointHandler u ord usersByIdSpec [("path", .str "/missing"), ("method", .str "GET")] =
      .ok (.error .NotFound "Path not found: /missing") ∧
    showEndpointHandler u ord usersByIdSpec
        [("path", .str "/users/{id}"), ("method", .str "PATCH")] =
      .ok (.error .NotFound "Method PATCH not found for path: /users/{id}") := by
  refine ⟨?_, ?_, ?_, ?_, by decide, by decide, ?_, ?_, ?_⟩
  · intro h
    rw [showEndpointHandler_eq, (Find_eq_none_iff ord spec.Paths path).2 h]
  · intro hm pathItem hfind hget
    rw [showEndpointHandler_eq, hfind]
    simp only [GetOperation_standard pathItem _ hm,
      (get_Operations_eq_none_iff pathItem _).2 hget]
  · intro hm hall
    rw [showEndpointHandler_eq]
    cases hfind : Find ord spec.Paths path with
    | none => exact ⟨_, rfl⟩
    | some pathItem =>
      obtain ⟨k, hk, hnorm⟩ := Find_some ord spec.Paths path pathItem hfind
      simp only [GetOperation_standard pathItem _ hm,
        (get_Operations_eq_none_iff pathItem _).2 (hall (k, pathItem) hk hnorm)]
      exact ⟨_, rfl⟩
  · intro v hv
    rw [showEndpointHandler_eq] at hv
    cases hfind : Find ord spec.Paths path with
    | none => rw [hfind] at hv; cases hv
    | some pathItem =>
      rw [hfind] at hv
      by_cases hm : ToUpper u method ∈ standardMethods
      · simp only [GetOperation_standard pathItem _ hm] at hv
        cases hget : pathItem.Operations.get (ToUpper u method) with
        | none => rw [hget] at hv; cases hv
        | some operation =>
          obtain ⟨k, hk, hnorm⟩ := Find_some ord spec.Paths path pathItem hfind
          refine ⟨k, pathItem, operation, hk, hnorm, ?_⟩
          rw [← Operations_eq]
          exact mem_of_get_eq_some hget
      · simp only [GetOperation_other pathItem _ hm] at hv
        cases hv
  · rw [showEndpointHandler_eq,
      show filesSpec.Paths = [("/files/{path*}", getItem)] from rfl,
      Find_single ord "/files/{path*}" "/files/{name}" getItem (by decide)]
    rfl
  · rw [showEndpointHandler_eq, (Find_eq_none_iff ord usersByIdSpec.Paths "/missing").2 (by
      intro q hq
      simp only [usersByIdSpec, specOfPaths, List.mem_singleton] at hq
      subst hq
      decide)]
    rfl
  · rw [showEndpointHandler_eq,
      Find_of_get ord usersByIdSpec.Paths "/users/{id}" getDeleteItem rfl]
    rfl

/-- C5, amended, at `("/users/{id}", "patch")` on the document with GET and DELETE:
"PATCH" is one of the nine method names, the document does not declare it, and
the result is the NotFound error. -/
theorem show_endpoint_not_found_witness :
    ToUpper .ascii "patch" ∈ standardMethods ∧
    Find .asListed usersByIdSpec.Paths "/users/{id}" = some getDeleteItem ∧
    (∀ operation, (ToUpper .ascii "patch", operation) ∉ declared_operations getDeleteItem) ∧
    showEndpointHandler .ascii .asListed usersByIdSpec
        [("path", .str "/users/{id}"), ("method", .str "patch")] =
      .ok (.error .NotFound ("Method " ++ "patch" ++ " not found for path: " ++ "/users/{id}")) :=
  have hnone : ∀ operation,
      (ToUpper .ascii "patch", operation) ∉ declared_operations getDeleteItem := by
    intro operation hmem
    have hkey : ToUpper .ascii "patch" ∈ (declared_operations getDeleteItem).map Prod.fst :=
      List.mem_map.2 ⟨_, hmem, rfl⟩
    revert hkey
    decide
  ⟨by decide, rfl, hnone,
   (show_endpoint_not_found .ascii .asListed usersByIdSpec "/users/{id}" "patch").2.1
      (by decide) getDeleteItem rfl hnone⟩

/-! ## C6: the errors of `showSchemaHandler` -/

theorem HasPrefix_iff (s pre : String) : HasPrefix s pre = true ↔ ∃ t, s = pre ++ t := by
  unfold HasPrefix
  rw [List.isPrefixOf_iff_prefix]
  constructor
  · rintro ⟨t, ht⟩
    exact ⟨String.mk t, String.ext (by simp [String.data_append, ht])⟩
  · rintro ⟨t, rfl⟩
    exact ⟨t.data, by simp [String.data_append]⟩

theorem TrimPrefix_append (pre t : String) : TrimPrefix (pre ++ t) pre = t := by
  have h : HasPrefix (pre ++ t) pre = true := (HasPrefix_iff _ _).2 ⟨t, rfl⟩
  unfold TrimPrefix
  rw [if_pos h]
  exact String.ext (by simp [String.data_append])

theorem RequireString_ref (ref : String) :
    RequireString [("ref", JVal.str ref)] "ref" = .ok ref := by
  simp [RequireString, GoMap.get]

/-- C6: `showSchemaHandler` fails with InvalidArgument exactly when `ref` does not
start with `#/components/schemas/`; when `ref` is that text followed by `name`,
it fails with NotFound exactly when the components block, its schemas map or the
entry `name` is absent. `components/schemas/User` gives InvalidArgument, and
`#/components/schemas/Ghost` gives NotFound on a document that declares `User`
only. -/
theorem show_schema_errors (spec : T) (ref : String) :
    ((∃ msg, showSchemaHandler spec [("ref", .str ref)] = .error .InvalidArgument msg) ↔
      ¬ ∃ name, ref = "#/components/schemas/" ++ name) ∧
    (∀ name, ref = "#/components/schemas/" ++ name →
      ((∃ msg, showSchemaHandler spec [("ref", .str ref)] = .error .NotFound msg) ↔
        (spec.Components = none ∨
         (∃ c, spec.Components = some c ∧ c.Schemas = none) ∨
         (∃ c s, spec.Components = some c ∧ c.Schemas = some s ∧ s.get name = none)))) ∧
    showSchemaHandler userSpec [("ref", .str "components/schemas/User")] =
      .error .InvalidArgument ("Invalid schema reference format. " ++
        "Expected: #/components/schemas/SchemaName, got: components/schemas/User") ∧
    showSchemaHandler userSpec [("ref", .str "#/components/schemas/Ghost")] =
      .error .NotFound "Schema not found: Ghost" := by
  refine ⟨?_, ?_, rfl, rfl⟩
  · unfold showSchemaHandler
    rw [RequireString_ref]
    by_cases hp : HasPrefix ref "#/components/schemas/" = true
    · have hex := (HasPrefix_iff _ _).1 hp
      simp only [hp, not_true_eq_false, if_false, hex, iff_false, not_exists]
      intro msg
      cases spec.Components with
      | none => simp
      | some c =>
        cases hs : c.Schemas with
        | none => simp [hs]
        | some s =>
          cases hg : s.get (TrimPrefix ref "#/components/schemas/") with
          | none => simp [hs, hg]
          | some schemaRef => simp [hs, hg, JSONResponse]
    · have hex : ¬ ∃ name, ref = "#/components/schemas/" ++ name :=
        fun h => hp ((HasPrefix_iff _ _).2 h)
      simp only [hp, hex, not_false_eq_true, if_true, iff_true]
      exact ⟨_, rfl⟩
  · rintro name rfl
    unfold showSchemaHandler
    rw [RequireString_ref]
    have hp : HasPrefix ("#/components/schemas/" ++ name) "#/components/schemas/" = true :=
      (HasPrefix_iff _ _).2 ⟨name, rfl⟩
    simp only [hp, not_true_eq_false, if_false, TrimPrefix_append]
    cases hc : spec.Components with
    | none => simp
    | some c =>
      cases hs : c.Schemas with
      | none => simp [hs]
      | some s =>
        cases hg : s.get name with
        | none => simp [hs, hg]
        | some schemaRef => simp [hs, hg, JSONResponse]

/-- C6 at `#/components/schemas/Ghost` on a document that declares `User` only. -/
theorem show_schema_errors_witness :
    "#/components/schemas/Ghost" = "#/components/schemas/" ++ "Ghost" ∧
    ((∃ msg, showSchemaHandler userSpec [("ref", .str "#/components/schemas/Ghost")] =
        .error .NotFound msg) ↔
      (userSpec.Components = none ∨
       (∃ c, userSpec.Components = some c ∧ c.Schemas = none) ∨
       (∃ c s, userSpec.Components = some c ∧ c.Schemas = some s ∧ s.get "Ghost" = none))) :=
  ⟨by decide, (show_schema_errors userSpec "#/components/schemas/Ghost").2.1 "Ghost" (by decide)⟩

/-! ## C7: the statistics of `getSpecInfoHandler` -/

theorem opEntry_length (method : String) (operation : Option Operation) :
    (opEntry method operation).length = if operation.isSome then 1 else 0 := by
  cases operation <;> rfl

theorem length_filter_isSome_cons (o : Option Operation) (l : List (Option Operation)) :
    ((o :: l).filter Option.isSome).length =
      (if o.isSome then 1 else 0) + (l.filter Option.isSome).length := by
  cases o <;> simp [List.filter_cons, Nat.add_comm]

theorem Operations_length (pathItem : PathItem) :
    pathItem.Operations.length = declaredMethodCount pathItem := by
  unfold PathItem.Operations declaredMethodCount
  simp only [List.length_append, opEntry_length, length_filter_isSome_cons, List.filter_nil,
    List.length_nil]
  omega

theorem countStats_fold (l : GoMap PathItem) :
    ∀ acc : Int × Int,
      List.foldl (fun (counts : Int × Int) (entry : String × PathItem) =>
        (counts.1 + 1, counts.2 + (entry.2.Operations.length : Int))) acc l =
      (acc.1 + (l.length : Int),
       acc.2 + (((l.map (fun q => declaredMethodCount q.2)).sum : Nat) : Int)) := by
  induction l with
  | nil => intro acc; simp
  | cons e l ih =>
    intro acc
    rw [List.foldl_cons, ih]
    simp only [List.length_cons, List.map_cons, List.sum_cons, Operations_length]
    refine Prod.ext ?_ ?_ <;> simp <;> omega

/-- The two counters after the loop of `getSpecInfoHandler`, for every order of
the visit. -/
theorem countStats_visit (ord : RangeOrder) (paths : GoMap PathItem) :
    countStats (ord.visit paths) =
      ((paths.length : Int), (((paths.map (fun q => declaredMethodCount q.2)).sum : Nat) : Int)) := by
  unfold countStats
  rw [countStats_fold, (ord.perm paths).length_eq,
    ((ord.perm paths).map (fun q => declaredMethodCount q.2)).sum_eq]
  simp

/-- The result of `getSpecInfoHandler` on a document with an info block: a JSON
object whose field `stats` holds the three counts. -/
theorem getSpecInfoHandler_stats (ord : RangeOrder) (spec : T) (request : CallToolRequest)
    (specInfo : Info) (h : spec.Info = some specInfo) :
    ∃ info : GoMap JVal,
      getSpecInfoHandler ord spec request = .ok (.json (.obj info)) ∧
      info.get "stats" = some (.obj
        [("paths", .int (spec.Paths.length : Int)),
         ("operations",
           .int (((spec.Paths.map (fun q => declaredMethodCount q.2)).sum : Nat) : Int)),
         ("tags", .int (spec.Tags.length : Int))]) := by
  unfold getSpecInfoHandler
  rw [h]
  refine ⟨_, rfl, ?_⟩
  rw [countStats_visit]
  cases specInfo.Contact <;> cases specInfo.License <;> simp only [] <;> split <;>
    simp [GoMap.get]

/-- C7: the document without info block, paths and tags is loaded by `LoadSpec`,
and on it `getSpecInfoHandler` panics at line 200 and returns no `stats`, where
the claim has the three counts 0. On every document the handler returns the
JSON result exactly when the document has an info block, and then the field
`stats` holds `paths`, the number of declared path templates, `operations`, the
sum over the declared path templates of the number of HTTP methods declared on
the template, and `tags`, the number of declared tags. -/
theorem spec_info_stats (ord : RangeOrder) (spec : T) (request : CallToolRequest) :
    getSpecInfoHandler ord noInfoSpec request =
      .error "runtime error: invalid memory address or nil pointer dereference" ∧
    ∃ info : GoMap JVal,
      info.get "stats" = some (.obj
        [("paths", .int (spec.Paths.length : Int)),
         ("operations",
           .int (((spec.Paths.map (fun q => declaredMethodCount q.2)).sum : Nat) : Int)),
         ("tags", .int (spec.Tags.length : Int))]) ∧
      getSpecInfoHandler ord spec request =
        if spec.Info.isSome then .ok (.json (.obj info)) else .error nilDereference := by
  refine ⟨rfl, ?_⟩
  cases h : spec.Info with
  | none =>
    refine ⟨[("stats", .obj
        [("paths", .int (spec.Paths.length : Int)),
         ("operations",
           .int (((spec.Paths.map (fun q => declaredMethodCount q.2)).sum : Nat) : Int)),
         ("tags", .int (spec.Tags.length : Int))])], by simp [GoMap.get], ?_⟩
    unfold getSpecInfoHandler
    rw [h]
    rfl
  | some specInfo =>
    obtain ⟨info, hres, hstats⟩ := getSpecInfoHandler_stats ord spec request specInfo h
    exact ⟨info, hstats, by rw [hres]; rfl⟩

/-! ## Schema expansion -/

/-- A reference is returned as it is. -/
theorem schemaToMapWithDepth_ref (heap : Addr → Schema) (schemaRef : SchemaRef) (d D : Int)
    (h : schemaRef.Ref ≠ "") :
    schemaToMapWithDepth heap (some schemaRef) d D = .obj [("$ref", .str schemaRef.Ref)] := by
  rw [schemaToMapWithDepth]
  simp [h]

/-- The expansion of an inline schema. -/
theorem schemaToMapWithDepth_value (heap : Addr → Schema) (schemaRef : SchemaRef) (d D : Int)
    (addr : Addr) (hr : schemaRef.Ref = "") (hv : schemaRef.Value = some addr) :
    schemaToMapWithDepth heap (some schemaRef) d D =
      .obj (schemaHead (heap addr) ++
        (if d < D then
          (if (heap addr).Properties.length > 0 then
            [("properties", JVal.obj ((heap addr).Properties.map (fun prop =>
              (prop.1, schemaToMapWithDepth heap prop.2 (d + 1) D))))]
          else []) ++
          (match (heap addr).Items with
           | some items => [("items", schemaToMapWithDepth heap (some items) (d + 1) D)]
           | none => [])
        else schemaPlaceholders (heap addr)) ++
        schemaEnum (heap addr)) := by
  rw [schemaToMapWithDepth]
  simp only [hr, hv, ne_eq, not_true_eq_false, if_false]
  by_cases h : d < D
  · simp only [h, dite_true, if_true]
  · simp only [h, dite_false, if_false]

theorem schemaToMapWithDepth_nil (heap : Addr → Schema) (d D : Int) :
    schemaToMapWithDepth heap none d D = .null := by
  rw [schemaToMapWithDepth]

theorem schemaToMapWithDepth_no_value (heap : Addr → Schema) (schemaRef : SchemaRef) (d D : Int)
    (hr : schemaRef.Ref = "") (hv : schemaRef.Value = none) :
    schemaToMapWithDepth heap (some schemaRef) d D = .null := by
  rw [schemaToMapWithDepth]
  simp [hr, hv]

theorem schemaHead_keys (schema : Schema) (k : String)
    (hk : k ∉ ["type", "format", "description", "required"]) :
    (schemaHead schema).get k = none := by
  simp only [List.mem_cons, List.mem_singleton, List.not_mem_nil, or_false, not_or] at hk
  obtain ⟨h1, h2, h3, h4⟩ := hk
  unfold schemaHead
  simp only [List.nil_append]
  rcases schema.Type_ with _ | _ | ⟨t, _ | ⟨t', ts⟩⟩ <;> split_ifs <;>
    simp [GoMap.get, Ne.symm h1, Ne.symm h2, Ne.symm h3, Ne.symm h4]

theorem schemaEnum_keys (schema : Schema) (k : String) (hk : k ≠ "enum") :
    (schemaEnum schema).get k = none := by
  unfold schemaEnum
  split
  · simp [GoMap.get, Ne.symm hk]
  · rfl

/-- The fields `properties` and `items` of an expanded schema come from the middle
part of the map. -/
theorem get_between (schema : Schema) (mid : GoMap JVal) (k : String)
    (hk : k ∉ ["type", "format", "description", "required"]) (hk' : k ≠ "enum") :
    GoMap.get (schemaHead schema ++ mid ++ schemaEnum schema) k = mid.get k := by
  rw [get_append, get_append, schemaHead_keys schema k hk, schemaEnum_keys schema k hk']
  cases mid.get k <;> rfl

theorem withinDepth_null (n : Nat) : withinDepth n .null = true := by
  cases n <;> rfl

theorem withinDepth_ref (n : Nat) (ref : String) :
    withinDepth n (.obj [("$ref", .str ref)]) = true := by
  cases n <;> rfl

/-- The middle part of an expanded schema at the bound. -/
theorem get_schemaPlaceholders (schema : Schema) :
    (∀ x, (schemaPlaceholders schema).get "properties" = some x → isPlaceholder x = true) ∧
    (∀ x, (schemaPlaceholders schema).get "items" = some x → isPlaceholder x = true) := by
  unfold schemaPlaceholders
  constructor <;> intro x hx <;> split_ifs at hx <;> cases hI : schema.Items <;>
    simp [hI, GoMap.get] at hx <;> subst hx <;> rfl

/-- From the depth `d` with the bound `D` the expansion renders at most
`max (D - d) 0` further levels, on every schema graph. -/
theorem withinDepth_schemaToMapWithDepth (heap : Addr → Schema) (D : Int) :
    ∀ (n : Nat) (d : Int), (D - d).toNat = n → ∀ schemaRef : Option SchemaRef,
      withinDepth n (schemaToMapWithDepth heap schemaRef d D) = true := by
  intro n
  induction n with
  | zero =>
    intro d hd schemaRef
    cases schemaRef with
    | none => rw [schemaToMapWithDepth_nil]; rfl
    | some sr =>
      by_cases hr : sr.Ref = ""
      · cases hv : sr.Value with
        | none => rw [schemaToMapWithDepth_no_value heap sr d D hr hv]; rfl
        | some addr =>
          have hlt : ¬ d < D := by omega
          rw [schemaToMapWithDepth_value heap sr d D addr hr hv, if_neg hlt]
          have hp := get_schemaPlaceholders (heap addr)
          simp only [withinDepth, get_between (heap addr) _ "properties" (by decide) (by decide),
            get_between (heap addr) _ "items" (by decide) (by decide), Bool.and_eq_true]
          constructor
          · cases hg : (schemaPlaceholders (heap addr)).get "properties" with
            | none => rfl
            | some x => exact hp.1 x hg
          · cases hg : (schemaPlaceholders (heap addr)).get "items" with
            | none => rfl
            | some x => exact hp.2 x hg
      · rw [schemaToMapWithDepth_ref heap sr d D hr]; rfl
  | succ m ih =>
    intro d hd schemaRef
    cases schemaRef with
    | none => rw [schemaToMapWithDepth_nil]; rfl
    | some sr =>
      by_cases hr : sr.Ref = ""
      · cases hv : sr.Value with
        | none => rw [schemaToMapWithDepth_no_value heap sr d D hr hv]; rfl
        | some addr =>
          have hlt : d < D := by omega
          have hd' : (D - (d + 1)).toNat = m := by omega
          rw [schemaToMapWithDepth_value heap sr d D addr hr hv, if_pos hlt]
          simp only [withinDepth, get_between (heap addr) _ "properties" (by decide) (by decide),
            get_between (heap addr) _ "items" (by decide) (by decide), Bool.and_eq_true]
          constructor
          · by_cases hlen : (heap addr).Properties.length > 0
            · simp only [hlen, if_true, get_append, GoMap.get]
              simp only [List.all_eq_true]
              intro p hp
              obtain ⟨q, _, rfl⟩ := List.mem_map.1 hp
              exact ih (d + 1) hd' q.2
            · simp only [hlen, if_false, List.nil_append]
              cases (heap addr).Items <;> rfl
          · have hP : GoMap.get (if (heap addr).Properties.length > 0 then
                [("properties", JVal.obj ((heap addr).Properties.map (fun prop =>
                  (prop.1, schemaToMapWithDepth heap prop.2 (d + 1) D))))]
                else []) "items" = none := by
              split <;> rfl
            rw [get_append, hP]
            cases (heap addr).Items with
            | none => rfl
            | some items =>
              simp only [GoMap.get, if_true, Bool.or_eq_true]
              exact Or.inr (ih (d + 1) hd' (some items))
      · rw [schemaToMapWithDepth_ref heap sr d D hr]; rfl

/-! ## C8, C9, C10 -/

/-- C8: a schema node whose reference string is not empty expands to exactly the
one-key object `{"$ref": ref}`, for every current depth and every maximum depth,
whatever the schema graph and whatever the node points to. -/
theorem reference_node_returned_as_is (heap : Addr → Schema) (ref : String)
    (value : Option Addr) (d D : Int) (h : ref ≠ "") :
    schemaToMapWithDepth heap (some { Ref := ref, Value := value }) d D =
      .obj [("$ref", .str ref)] :=
  schemaToMapWithDepth_ref heap { Ref := ref, Value := value } d D h

/-- C8 on the cyclic graph, beyond the bound: the reference to `Node` at depth 7
with the bound 2. -/
theorem reference_node_returned_as_is_witness :
    "#/components/schemas/Node" ≠ "" ∧
    schemaToMapWithDepth cyclicHeap
        (some { Ref := "#/components/schemas/Node", Value := some 0 }) 7 2 =
      .obj [("$ref", .str "#/components/schemas/Node")] :=
  ⟨by decide,
   reference_node_returned_as_is cyclicHeap "#/components/schemas/Node" (some 0) 7 2 (by decide)⟩

/-- What `showSchemaHandler` puts in the field `schema`. -/
theorem showSchemaHandler_schema (spec : T) (ref : String) (fields : GoMap JVal) (v : JVal)
    (h : showSchemaHandler spec [("ref", .str ref)] = .json (.obj fields))
    (hv : fields.get "schema" = some v) :
    ∃ schemaRef : SchemaRef,
      v = .obj [("$ref", .str schemaRef.Ref)] ∨
      v = schemaToMapWithDepth spec.heap (some schemaRef) 0 DetailedSchemaMaxDepth := by
  unfold showSchemaHandler at h
  rw [RequireString_ref] at h
  by_cases hp : HasPrefix ref "#/components/schemas/" = true
  · simp only [hp, not_true_eq_false, if_false] at h
    cases hc : spec.Components with
    | none => simp [hc] at h
    | some c =>
      cases hs : c.Schemas with
      | none => simp [hc, hs] at h
      | some s =>
        cases hg : s.get (TrimPrefix ref "#/components/schemas/") with
        | none => simp [hc, hs, hg] at h
        | some schemaRef =>
          refine ⟨schemaRef, ?_⟩
          simp only [hc, hs, hg, JSONResponse, ToolResult.json.injEq, JVal.obj.injEq] at h
          subst h
          by_cases hr : schemaRef.Ref = ""
          · cases hval : schemaRef.Value with
            | none => simp [hr, hval, GoMap.get] at hv
            | some addr =>
              simp [hr, hval, GoMap.get] at hv
              exact Or.inr hv.symm
          · simp [hr, GoMap.get] at hv
            exact Or.inl hv.symm
  · simp [hp] at h

/-- C9: for every schema graph and every maximum depth `D ≥ 0`, the expansion
started at depth 0 has expanded `properties` and `items` nested at most `D` levels
below the root, and at the level `D` every value of `properties` and of `items`
is a placeholder string. `schemaToMap`, which renders the body and response
schemas of show_endpoint, is the expansion with `D = 2`; the schema that
`showSchemaHandler` returns is bounded by `D = 4`. -/
theorem expansion_depth_bounded (heap : Addr → Schema) (schemaRef : Option SchemaRef) (D : Nat) :
    withinDepth D (schemaToMapWithDepth heap schemaRef 0 (D : Int)) = true ∧
    schemaToMap heap schemaRef = schemaToMapWithDepth heap schemaRef 0 2 ∧
    (∀ content : GoMap MediaType, ∀ e ∈ contentToMap heap content, withinDepth 2 e.2 = true) ∧
    (∀ (spec : T) (ref : String) (fields : GoMap JVal) (v : JVal),
      showSchemaHandler spec [("ref", .str ref)] = .json (.obj fields) →
      fields.get "schema" = some v → withinDepth 4 v = true) := by
  refine ⟨withinDepth_schemaToMapWithDepth heap D D 0 (by omega) schemaRef, rfl, ?_, ?_⟩
  · intro content e he
    unfold contentToMap at he
    rw [List.mem_filterMap] at he
    obtain ⟨m, _, hm⟩ := he
    cases hS : m.2.Schema with
    | none => simp [hS] at hm
    | some sr =>
      simp only [hS, Option.some.injEq] at hm
      subst hm
      exact withinDepth_schemaToMapWithDepth heap 2 2 0 (by decide) (some sr)
  · intro spec ref fields v h hv
    obtain ⟨sr, hsr | hsr⟩ := showSchemaHandler_schema spec ref fields v h hv
    · rw [hsr]; rfl
    · rw [hsr]
      exact withinDepth_schemaToMapWithDepth spec.heap 4 4 0 (by decide) (some sr)

/-- C9 on the cyclic graph: the schema that `showSchemaHandler` returns for `Loop`,
a schema that contains itself, is bounded by 4 levels. -/
theorem expansion_depth_bounded_witness :
    withinDepth 4 (schemaToMapWithDepth cyclicHeap (some { Ref := "", Value := some 1 }) 0
      DetailedSchemaMaxDepth) = true :=
  (expansion_depth_bounded cyclicHeap none 0).2.2.2 cyclicSpec "#/components/schemas/Loop"
    [("name", .str "Loop"), ("ref", .str "#/components/schemas/Loop"),
     ("schema", schemaToMapWithDepth cyclicHeap (some { Ref := "", Value := some 1 }) 0
        DetailedSchemaMaxDepth)]
    _ rfl rfl

/-- The expansion of the component `Node`, whose property refers to `Node`. -/
theorem expand_node :
    schemaToMapWithDepth cyclicHeap (some { Ref := "", Value := some 0 }) 0 SchemaMaxDepth =
      .obj [("type", .str "object"),
            ("properties", .obj
              [("next", .obj [("$ref", .str "#/components/schemas/Node")])])] := by
  simp [schemaToMapWithDepth, cyclicHeap, SchemaMaxDepth, schemaHead, schemaEnum, emptySchema]

/-- The expansion of the schema object that contains itself. -/
theorem expand_loop :
    schemaToMapWithDepth cyclicHeap (some { Ref := "", Value := some 1 }) 0 SchemaMaxDepth =
      .obj [("type", .str "array"),
        ("properties", .obj [("again", .obj [("type", .str "array"),
          ("properties", .obj [("again", .obj [("type", .str "array"),
            ("properties", .str "[1 properties not expanded]"),
            ("items", .str "[not expanded]")])]),
          ("items", .obj [("type", .str "array"),
            ("properties", .str "[1 properties not expanded]"),
            ("items", .str "[not expanded]")])])]),
        ("items", .obj [("type", .str "array"),
          ("properties", .obj [("again", .obj [("type", .str "array"),
            ("properties", .str "[1 properties not expanded]"),
            ("items", .str "[not expanded]")])]),
          ("items", .obj [("type", .str "array"),
            ("properties", .str "[1 properties not expanded]"),
            ("items", .str "[not expanded]")])])] := by
  simp [schemaToMapWithDepth, cyclicHeap, SchemaMaxDepth, schemaHead, schemaEnum, emptySchema,
    schemaPlaceholders, propertiesPlaceholder]
  decide

/-- C10: schema expansion is a total function of the schema graph, also when the
graph has cycles. From the depth `d` with the bound `D` it renders at most
`max (D - d) 0` further levels; when it expands the properties (`d < D`), a
property that is a reference, be it to the schema itself, appears as
`{"$ref": ref}` and nothing else; the expansion reads the graph and writes
nothing, so two invocations on the same schema give equal results. On the cyclic
graph the expansion of `Node`, whose property refers to `Node`, and that of the
schema that contains itself are the finite values below. -/
theorem expansion_terminates (heap : Addr → Schema) (schemaRef : Option SchemaRef) (d D : Int) :
    withinDepth (D - d).toNat (schemaToMapWithDepth heap schemaRef d D) = true ∧
    (∀ (addr : Addr) (name ref : String) (value : Option Addr), d < D →
      (name, some { Ref := ref, Value := value }) ∈ (heap addr).Properties → ref ≠ "" →
      ∃ fields props,
        schemaToMapWithDepth heap (some { Ref := "", Value := some addr }) d D = .obj fields ∧
        GoMap.get fields "properties" = some (.obj props) ∧
        (name, .obj [("$ref", .str ref)]) ∈ props) ∧
    (∀ first second : JVal, first = schemaToMapWithDepth heap schemaRef d D →
      second = schemaToMapWithDepth heap schemaRef d D → first = second) ∧
    schemaToMapWithDepth cyclicHeap (some { Ref := "", Value := some 0 }) 0 SchemaMaxDepth =
      .obj [("type", .str "object"),
            ("properties", .obj
              [("next", .obj [("$ref", .str "#/components/schemas/Node")])])] ∧
    withinDepth 2 (schemaToMapWithDepth cyclicHeap (some { Ref := "", Value := some 1 }) 0
      SchemaMaxDepth) = true ∧
    withinDepth 1 (schemaToMapWithDepth cyclicHeap (some { Ref := "", Value := some 1 }) 0
      SchemaMaxDepth) = false := by
  refine ⟨withinDepth_schemaToMapWithDepth heap D _ d rfl schemaRef, ?_,
    fun first second h₁ h₂ => h₁.trans h₂.symm, expand_node, ?_, ?_⟩
  · intro addr name ref value hlt hmem href
    have hlen : (heap addr).Properties.length > 0 := List.length_pos_of_mem hmem
    refine ⟨_, (heap addr).Properties.map (fun prop =>
        (prop.1, schemaToMapWithDepth heap prop.2 (d + 1) D)),
      schemaToMapWithDepth_value heap _ d D addr rfl rfl, ?_, ?_⟩
    · rw [get_between (heap addr) _ "properties" (by decide) (by decide), if_pos hlt,
        if_pos hlen]
      rfl
    · rw [List.mem_map]
      exact ⟨_, hmem, by
        simp only [schemaToMapWithDepth_ref heap { Ref := ref, Value := value } (d + 1) D href]⟩
  · rw [expand_loop]; decide
  · rw [expand_loop]; decide

/-- C10 on the cyclic graph: the property `next` of `Node` refers to `Node`, and
the expansion of `Node` holds `{"$ref": ...}` for it. -/
theorem expansion_terminates_witness :
    ∃ fields props,
      schemaToMapWithDepth cyclicHeap (some { Ref := "", Value := some 0 }) 0 4 = .obj fields ∧
      GoMap.get fields "properties" = some (.obj props) ∧
      ("next", JVal.obj [("$ref", .str "#/components/schemas/Node")]) ∈ props :=
  (expansion_terminates cyclicHeap none 0 4).2.1 0 "next" "#/components/schemas/Node" (some 0)
    (by decide) (by simp [cyclicHeap]) (by decide)

/-! ## The cache -/

theorem available_of_ReadFile {disk : Disk} {path : String} {data : Bytes}
    (h : disk.ReadFile path = some data) : disk.available = true := by
  unfold Disk.ReadFile at h
  split at h
  · assumption
  · cases h

/-- The outcome of `loadFromCache` on an entry with parsable metadata and readable
data. -/
theorem loadFromCache_entry (c : Cache) (lib : CacheLibrary) (env : Env) (disk : Disk)
    (cacheFile metaFile : String) (metaData data : Bytes) (meta : cacheMetadata)
    (hmeta : disk.ReadFile metaFile = some metaData) (hparse : lib.unmarshal metaData = some meta)
    (hdata : disk.ReadFile cacheFile = some data) :
    c.loadFromCache lib env disk cacheFile metaFile =
      if env.timeAtLoad > meta.Expiration then .error .expired else .ok data := by
  unfold Cache.loadFromCache
  simp only [hmeta, hparse, hdata]

/-- What `LoadFromURL` does after `os.MkdirAll` has succeeded and `loadFromCache`
has returned bytes: it returns them, and touches neither the network nor the
directory. -/
theorem LoadFromURL_hit (c : Cache) (lib : CacheLibrary) (env : Env) (disk : Disk)
    (url : String) (data : Bytes) (havail : disk.available = true)
    (h : c.loadFromCache lib env disk (c.cacheFile lib url) (c.metaFile lib url) = .ok data) :
    c.LoadFromURL lib env disk url = { result := .ok data, disk := disk, requests := [] } := by
  unfold Cache.LoadFromURL
  simp [havail, h]

/-- After `os.MkdirAll` has succeeded and `loadFromCache` has failed, `LoadFromURL`
issues one request. -/
theorem LoadFromURL_miss (c : Cache) (lib : CacheLibrary) (env : Env) (disk : Disk)
    (url : String) (miss : CacheMiss) (havail : disk.available = true)
    (h : c.loadFromCache lib env disk (c.cacheFile lib url) (c.metaFile lib url) = .error miss) :
    (c.LoadFromURL lib env disk url).requests = [url] := by
  unfold Cache.LoadFromURL
  simp only [havail, h, Bool.true_eq_false, if_false]
  cases env.get url with
  | none => rfl
  | some resp =>
    by_cases hs : resp.StatusCode = 200
    · cases hb : resp.Body <;> simp [hs, hb]
    · simp [hs]

/-- C20, as stated, fails: at a current time equal to the expiration (here 100) the
entry is not a miss; `loadFromCache` serves the cached bytes and `LoadFromURL`
makes no live fetch. -/
theorem cache_freshness_counterexample :
    exampleCache.loadFromCache exampleLibrary (envAt 100 (some okResponse)) diskWithEntry
        (exampleCache.cacheFile exampleLibrary exampleURL)
        (exampleCache.metaFile exampleLibrary exampleURL) = .ok [1, 2, 3] ∧
    (exampleCache.LoadFromURL exampleLibrary (envAt 100 (some okResponse)) diskWithEntry
        exampleURL).result = .ok [1, 2, 3] ∧
    (exampleCache.LoadFromURL exampleLibrary (envAt 100 (some okResponse)) diskWithEntry
        exampleURL).requests = [] :=
  ⟨rfl, rfl, rfl⟩

/-- C20, amended: for every cache entry with parsable metadata and readable data,
the cached bytes are served if and only if the current time is not after the
expiration of the entry (before it or equal to it); at a current time later than
the expiration the entry is a miss and `LoadFromURL` makes a live fetch. -/
theorem cache_served_until_expiration (c : Cache) (lib : CacheLibrary) (env : Env) (disk : Disk)
    (url : String) (metaData data : Bytes) (meta : cacheMetadata)
    (hmeta : disk.ReadFile (c.metaFile lib url) = some metaData)
    (hparse : lib.unmarshal metaData = some meta)
    (hdata : disk.ReadFile (c.cacheFile lib url) = some data) :
    (c.loadFromCache lib env disk (c.cacheFile lib url) (c.metaFile lib url) = .ok data ↔
      env.timeAtLoad ≤ meta.Expiration) ∧
    (env.timeAtLoad ≤ meta.Expiration →
      c.LoadFromURL lib env disk url = { result := .ok data, disk := disk, requests := [] }) ∧
    (meta.Expiration < env.timeAtLoad →
      c.loadFromCache lib env disk (c.cacheFile lib url) (c.metaFile lib url) =
        .error .expired ∧
      (c.LoadFromURL lib env disk url).requests = [url]) := by
  have hload := loadFromCache_entry c lib env disk _ _ metaData data meta hmeta hparse hdata
  have havail := available_of_ReadFile hmeta
  refine ⟨?_, ?_, ?_⟩
  · rw [hload]
    by_cases h : env.timeAtLoad > meta.Expiration
    · simp only [h, if_true]
      constructor
      · intro h'; cases h'
      · intro h'; omega
    · simp only [h, if_false, true_iff]
      omega
  · intro h
    apply LoadFromURL_hit c lib env disk url data havail
    rw [hload, if_neg (by omega)]
  · intro h
    have hexp : c.loadFromCache lib env disk (c.cacheFile lib url) (c.metaFile lib url) =
        .error .expired := by
      rw [hload, if_pos (by omega)]
    exact ⟨hexp, LoadFromURL_miss c lib env disk url _ havail hexp⟩

/-- C20, amended, on the entry with the expiration 100 at the time 101: the entry
is a miss and one request is issued. -/
theorem cache_served_until_expiration_witness :
    exampleCache.loadFromCache exampleLibrary (envAt 101 (some okResponse)) diskWithEntry
        (exampleCache.cacheFile exampleLibrary exampleURL)
        (exampleCache.metaFile exampleLibrary exampleURL) = .error .expired ∧
    (exampleCache.LoadFromURL exampleLibrary (envAt 101 (some okResponse)) diskWithEntry
        exampleURL).requests = [exampleURL] :=
  (cache_served_until_expiration exampleCache exampleLibrary (envAt 101 (some okResponse))
    diskWithEntry exampleURL
    (encodeTime 0 ++ encodeTime 100 ++ exampleURL.data.map Char.toNat) [1, 2, 3]
    { URL := String.mk ((exampleURL.data.map Char.toNat).map Char.ofNat), CachedAt := 0,
      Expiration := 100 }
    rfl rfl rfl).2.2 (by decide)

/-- The bytes that `loadFromCache` returns are the fresh readable entry. -/
theorem loadFromCache_eq_freshEntry (c : Cache) (lib : CacheLibrary) (env : Env) (disk : Disk)
    (url : String) :
    (∀ data, c.loadFromCache lib env disk (c.cacheFile lib url) (c.metaFile lib url) = .ok data ↔
      freshEntry c lib env disk url = some data) := by
  intro data
  unfold Cache.loadFromCache freshEntry
  cases hm : disk.ReadFile (c.metaFile lib url) with
  | none => simp
  | some metaData =>
    cases hu : lib.unmarshal metaData with
    | none => simp [hu]
    | some meta =>
      by_cases h : env.timeAtLoad > meta.Expiration
      · have h' : ¬ env.timeAtLoad ≤ meta.Expiration := by omega
        simp [hu, h, h']
      · have h' : env.timeAtLoad ≤ meta.Expiration := by omega
        simp only [hu, h, h', if_true, if_false]
        cases disk.ReadFile (c.cacheFile lib url) <;> simp

/-- The result of `LoadFromURL`, by cases. -/
theorem LoadFromURL_result (c : Cache) (lib : CacheLibrary) (env : Env) (disk : Disk)
    (url : String) :
    (c.LoadFromURL lib env disk url).result =
      if disk.available = false then .error .mkdir
      else
        match freshEntry c lib env disk url with
        | some data => .ok data
        | none =>
          match env.get url with
          | none => .error .transport
          | some resp =>
            if resp.StatusCode ≠ 200 then .error (.status resp.StatusCode)
            else
              match resp.Body with
              | none => .error .body
              | some data => .ok data := by
  unfold Cache.LoadFromURL
  by_cases havail : disk.available = false
  · simp [havail]
  · simp only [havail, if_false]
    cases hload : c.loadFromCache lib env disk (c.cacheFile lib url) (c.metaFile lib url) with
    | ok data =>
      rw [(loadFromCache_eq_freshEntry c lib env disk url data).1 hload]
      simp
    | error miss =>
      have hnone : freshEntry c lib env disk url = none := by
        cases hf : freshEntry c lib env disk url with
        | none => rfl
        | some data =>
          rw [(loadFromCache_eq_freshEntry c lib env disk url data).2 hf] at hload
          cases hload
      rw [hnone]
      cases env.get url with
      | none => simp
      | some resp =>
        by_cases hs : resp.StatusCode = 200
        · cases hb : resp.Body <;> simp [hs, hb]
        · simp [hs]

/-- C12, as stated, fails in two ways. With an empty cache directory and a live GET
that answers 204 with a readable body, a 2xx status, the fetch returns an error.
With a cache directory that cannot be created and a live GET that would answer
200, the fetch returns an error without issuing the request. -/
theorem fetch_error_counterexample :
    (exampleCache.LoadFromURL exampleLibrary
        (envAt 0 (some { StatusCode := 204, Body := some [7, 8, 9] })) emptyDisk exampleURL).result =
      .error (.status 204) ∧
    downloadFails2xx (envAt 0 (some { StatusCode := 204, Body := some [7, 8, 9] })) exampleURL =
      false ∧
    (exampleCache.LoadFromURL exampleLibrary (envAt 0 (some okResponse)) noDisk exampleURL).result =
      .error .mkdir ∧
    (exampleCache.LoadFromURL exampleLibrary (envAt 0 (some okResponse)) noDisk
        exampleURL).requests = [] ∧
    downloadFails2xx (envAt 0 (some okResponse)) exampleURL = false :=
  ⟨rfl, rfl, rfl, rfl, rfl⟩

/-- C12, amended: `LoadFromURL` returns an error exactly when the cache directory
cannot be created, or the cache holds no fresh readable entry for the URL and the
live download fails, where a download fails exactly when the transport fails or
the response status is not 200. So, once the directory is there, the fetch
succeeds whenever a fresh entry exists or the live GET answers 200 with a
readable body; and the result is the same whatever happens to the writes of the
cache artifacts. -/
theorem fetch_error_iff (c : Cache) (lib : CacheLibrary) (env : Env) (disk : Disk)
    (url : String) :
    ((∃ e, (c.LoadFromURL lib env disk url).result = .error e) ↔
      (disk.available = false ∨
       (freshEntry c lib env disk url = none ∧ downloadFails200 env url = true))) ∧
    (disk.available = true →
      (freshEntry c lib env disk url ≠ none ∨ downloadFails200 env url = false) →
      ∃ data, (c.LoadFromURL lib env disk url).result = .ok data) ∧
    (∀ writes : String → Option (Option Bytes),
      (c.LoadFromURL lib { env with writeFails := writes } disk url).result =
        (c.LoadFromURL lib env disk url).result) := by
  have key : (∃ e, (c.LoadFromURL lib env disk url).result = .error e) ↔
      (disk.available = false ∨
       (freshEntry c lib env disk url = none ∧ downloadFails200 env url = true)) := by
    rw [LoadFromURL_result]
    unfold downloadFails200 transportFails
    by_cases havail : disk.available = false
    · simp [havail]
    · simp only [havail, if_false, false_or]
      cases freshEntry c lib env disk url with
      | some data => simp
      | none =>
        cases env.get url with
        | none => simp
        | some resp =>
          by_cases hs : resp.StatusCode = 200
          · cases hb : resp.Body <;> simp [hs, hb]
          · simp [hs]
  refine ⟨key, ?_, ?_⟩
  · intro havail h
    cases hres : (c.LoadFromURL lib env disk url).result with
    | ok data => exact ⟨data, rfl⟩
    | error e =>
      rcases key.1 ⟨e, hres⟩ with h' | ⟨h₁, h₂⟩
      · rw [havail] at h'; cases h'
      · rcases h with h | h
        · exact absurd h₁ h
        · rw [h₂] at h; cases h
  · intro writes
    rw [LoadFromURL_result, LoadFromURL_result]
    rfl

/-- C12, amended, with an empty directory in which every write fails and a live
GET that answers 200: the fetch succeeds. -/
theorem fetch_error_iff_witness :
    emptyDisk.available = true ∧
    (freshEntry exampleCache exampleLibrary (envReadOnly 0 (some okResponse)) emptyDisk
        exampleURL ≠ none ∨
      downloadFails200 (envReadOnly 0 (some okResponse)) exampleURL = false) ∧
    ∃ data, (exampleCache.LoadFromURL exampleLibrary (envReadOnly 0 (some okResponse)) emptyDisk
      exampleURL).result = .ok data :=
  ⟨rfl, Or.inr rfl,
   (fetch_error_iff exampleCache exampleLibrary (envReadOnly 0 (some okResponse)) emptyDisk
      exampleURL).2.1 rfl (Or.inr rfl)⟩

/-- The two artifacts of a URL are different files. -/
theorem cacheFile_ne_metaFile (c : Cache) (lib : CacheLibrary) (url : String) :
    c.cacheFile lib url ≠ c.metaFile lib url := by
  intro h
  have h' := congrArg String.data h
  simp only [Cache.cacheFile, Cache.metaFile, String.data_append, List.append_assoc,
    List.append_cancel_left_eq] at h'
  exact absurd h' (by decide)

/-- The directory after a `saveToCache` that returned no error: both artifacts can
be read, the metadata carries the expiration computed from the clock. -/
theorem saveToCache_ok (c : Cache) (lib : CacheLibrary) (env : Env) (disk : Disk)
    (url : String) (data : Bytes) (havail : disk.available = true)
    (h : (c.saveToCache lib env disk (c.cacheFile lib url) (c.metaFile lib url) url data).1 =
      none) :
    ∃ metaData,
      lib.marshal { URL := url, CachedAt := env.timeAtCachedAt,
                    Expiration := env.timeAtExpiration + c.ttl } = some metaData ∧
      (c.saveToCache lib env disk (c.cacheFile lib url) (c.metaFile lib url) url data).2.ReadFile
        (c.metaFile lib url) = some metaData ∧
      (c.saveToCache lib env disk (c.cacheFile lib url) (c.metaFile lib url) url data).2.ReadFile
        (c.cacheFile lib url) = some data := by
  unfold Cache.saveToCache WriteFile at *
  cases hw₁ : env.writeFails (c.cacheFile lib url) with
  | some left => simp [hw₁] at h
  | none =>
    simp only [hw₁] at h ⊢
    cases hm : lib.marshal ⟨url, env.timeAtCachedAt, env.timeAtExpiration + c.ttl⟩ with
    | none => simp [hm] at h
    | some metaData =>
      simp only [hm] at h ⊢
      cases hw₂ : env.writeFails (c.metaFile lib url) with
      | some left => simp [hw₂] at h
      | none =>
        refine ⟨metaData, rfl, ?_, ?_⟩
        · simp [Disk.ReadFile, havail]
        · simp [Disk.ReadFile, havail, cacheFile_ne_metaFile c lib url]

/-- A call of `LoadFromURL` that returned bytes after a request has downloaded
them and has handed them to `saveToCache`. -/
theorem LoadFromURL_downloaded (c : Cache) (lib : CacheLibrary) (env : Env) (disk : Disk)
    (url : String) (b : Bytes) (hfetch : (c.LoadFromURL lib env disk url).result = .ok b)
    (hnet : (c.LoadFromURL lib env disk url).requests = [url]) :
    disk.available = true ∧
    (c.LoadFromURL lib env disk url).disk =
      (c.saveToCache lib env disk (c.cacheFile lib url) (c.metaFile lib url) url b).2 := by
  unfold Cache.LoadFromURL at *
  by_cases havail : disk.available = false
  · simp [havail] at hfetch
  · have htrue : disk.available = true := by
      cases hd : disk.available
      · exact absurd hd havail
      · rfl
    refine ⟨htrue, ?_⟩
    simp only [havail, if_false] at hfetch hnet ⊢
    cases hload : c.loadFromCache lib env disk (c.cacheFile lib url) (c.metaFile lib url) with
    | ok data => simp [hload] at hnet
    | error miss =>
      simp only [hload] at hfetch ⊢
      cases hget : env.get url with
      | none => simp [hget] at hfetch
      | some resp =>
        simp only [hget] at hfetch ⊢
        by_cases hs : resp.StatusCode = 200
        · simp only [hs, ne_eq, not_true_eq_false, if_false] at hfetch ⊢
          cases hb : resp.Body with
          | none => simp [hb] at hfetch
          | some data =>
            simp [hb] at hfetch ⊢
            rw [hfetch]
        · simp [hs] at hfetch

theorem exampleLibrary_round_trip (m : cacheMetadata) (bytes : Bytes)
    (h : exampleLibrary.marshal m = some bytes) :
    ∃ m', exampleLibrary.unmarshal bytes = some m' ∧ m'.Expiration = m.Expiration := by
  simp only [exampleLibrary, encodeTime, Option.some.injEq] at h
  subst h
  refine ⟨_, rfl, ?_⟩
  by_cases he : m.Expiration < 0
  · simp only [decodeTime, he, if_true]
    omega
  · simp only [decodeTime, he, if_false]
    simp
    omega

/-- C11, as stated, fails: when the writes of the cache artifacts fail, a first
fetch still succeeds with the downloaded bytes, and a second fetch one
nanosecond later, well within the time to live of 1000, issues a network request
again. -/
theorem cache_round_trip_counterexample :
    (exampleCache.LoadFromURL exampleLibrary (envReadOnly 0 (some okResponse)) emptyDisk
        exampleURL).result = .ok [7, 8, 9] ∧
    (exampleCache.LoadFromURL exampleLibrary (envAt 1 (some okResponse))
        (exampleCache.LoadFromURL exampleLibrary (envReadOnly 0 (some okResponse)) emptyDisk
          exampleURL).disk exampleURL).requests = [exampleURL] :=
  ⟨rfl, rfl⟩

/-- C11, amended: after a first fetch of a URL has downloaded the bytes `b` and its
`saveToCache` has returned no error (both artifacts were written), the stored
expiration is the clock reading of the save plus the time to live; a second fetch
at any time not after that expiration returns exactly `b`, issues no network
request and leaves the directory as it is; and at any time after that expiration
the next fetch issues a new network request. The metadata decoder is assumed to
give back the expiration that the encoder wrote. -/
theorem cache_round_trip (c : Cache) (lib : CacheLibrary) (env₁ : Env) (disk₀ : Disk)
    (url : String) (b : Bytes)
    (hcodec : ∀ m bytes, lib.marshal m = some bytes →
      ∃ m', lib.unmarshal bytes = some m' ∧ m'.Expiration = m.Expiration)
    (hfetch : (c.LoadFromURL lib env₁ disk₀ url).result = .ok b)
    (hnet : (c.LoadFromURL lib env₁ disk₀ url).requests = [url])
    (hsave : (c.saveToCache lib env₁ disk₀ (c.cacheFile lib url) (c.metaFile lib url) url b).1 =
      none) :
    (∃ metaData meta,
      (c.LoadFromURL lib env₁ disk₀ url).disk.ReadFile (c.metaFile lib url) = some metaData ∧
      lib.unmarshal metaData = some meta ∧
      meta.Expiration = env₁.timeAtExpiration + c.ttl) ∧
    (∀ env₂ : Env, env₂.timeAtLoad ≤ env₁.timeAtExpiration + c.ttl →
      c.LoadFromURL lib env₂ (c.LoadFromURL lib env₁ disk₀ url).disk url =
        { result := .ok b, disk := (c.LoadFromURL lib env₁ disk₀ url).disk, requests := [] }) ∧
    (∀ env₂ : Env, env₁.timeAtExpiration + c.ttl < env₂.timeAtLoad →
      (c.LoadFromURL lib env₂ (c.LoadFromURL lib env₁ disk₀ url).disk url).requests = [url]) := by
  obtain ⟨havail, hdisk⟩ := LoadFromURL_downloaded c lib env₁ disk₀ url b hfetch hnet
  obtain ⟨metaData, hmarshal, hmeta, hdata⟩ := saveToCache_ok c lib env₁ disk₀ url b havail hsave
  obtain ⟨meta, hparse, hexp⟩ := hcodec _ _ hmarshal
  simp only at hexp
  rw [← hdisk] at hmeta hdata
  have havail₁ := available_of_ReadFile hmeta
  have hload : ∀ env₂ : Env,
      c.loadFromCache lib env₂ (c.LoadFromURL lib env₁ disk₀ url).disk (c.cacheFile lib url)
        (c.metaFile lib url) =
      if env₂.timeAtLoad > meta.Expiration then .error .expired else .ok b :=
    fun env₂ => loadFromCache_entry c lib env₂ _ _ _ metaData b meta hmeta hparse hdata
  refine ⟨⟨metaData, meta, hmeta, hparse, hexp⟩, ?_, ?_⟩
  · intro env₂ h
    apply LoadFromURL_hit c lib env₂ _ url b havail₁
    rw [hload, if_neg (by rw [hexp]; omega)]
  · intro env₂ h
    apply LoadFromURL_miss c lib env₂ _ url .expired havail₁
    rw [hload, if_pos (by rw [hexp]; omega)]

/-- C11, amended, on an empty directory that accepts writes: the first fetch at the
time 0 downloads 7, 8, 9; a second fetch at the time 1000, the stored expiration,
returns 7, 8, 9 without a request, whatever the network would answer. -/
theorem cache_round_trip_witness :
    (exampleCache.LoadFromURL exampleLibrary (envAt 0 (some okResponse)) emptyDisk
        exampleURL).result = .ok [7, 8, 9] ∧
    exampleCache.LoadFromURL exampleLibrary (envAt 1000 none)
        (exampleCache.LoadFromURL exampleLibrary (envAt 0 (some okResponse)) emptyDisk
          exampleURL).disk exampleURL =
      { result := .ok [7, 8, 9],
        disk := (exampleCache.LoadFromURL exampleLibrary (envAt 0 (some okResponse)) emptyDisk
          exampleURL).disk,
        requests := [] } :=
  ⟨rfl,
   (cache_round_trip exampleCache exampleLibrary (envAt 0 (some okResponse)) emptyDisk
      exampleURL [7, 8, 9] exampleLibrary_round_trip rfl rfl rfl).2.1 (envAt 1000 none)
      (by decide)⟩

/-! ## C13: `SortMapsByName` -/

/-- C13: `SortMapsByName` leaves a permutation of its input in which no object is
followed by one with a smaller name, in the ordinal order of strings; the name of
an object is its field `name` when that is a string, and the empty string when
the field is absent or holds anything else. -/
theorem sort_by_name_sorted_permutation (items : List (GoMap JVal)) :
    (SortMapsByName items).Perm items ∧
    (SortMapsByName items).Pairwise (fun a b => nameOf a ≤ nameOf b) ∧
    (∀ (item : GoMap JVal) (s : String), item.get "name" = some (.str s) → nameOf item = s) ∧
    (∀ item : GoMap JVal, item.get "name" = none → nameOf item = "") ∧
    (∀ (item : GoMap JVal) (v : JVal), item.get "name" = some v → (∀ s, v ≠ .str s) →
      nameOf item = "") ∧
    SortMapsByName [[("name", .str "b")], [("id", .int 1)], [("name", .str "a")]] =
      [[("id", .int 1)], [("name", .str "a")], [("name", .str "b")]] := by
  refine ⟨SortMapsByName_perm items, ?_, ?_, ?_, ?_, rfl⟩
  · refine (SortMapsByName_sorted items).imp ?_
    intro a b hab
    rw [← not_lt, String.lt_iff_toList_lt]
    exact hab
  · intro item s h
    simp [nameOf, h]
  · intro item h
    simp [nameOf, h]
  · intro item v h hv
    unfold nameOf
    rw [h]
    cases v <;> first | rfl | exact absurd rfl (hv _)

/-- C13 at an object without the field `name`: it is ordered as the empty string. -/
theorem sort_by_name_sorted_permutation_witness :
    GoMap.get [("id", JVal.int 1)] "name" = none ∧ nameOf [("id", JVal.int 1)] = "" :=
  ⟨rfl, (sort_by_name_sorted_permutation []).2.2.2.1 [("id", JVal.int 1)] rfl⟩

/-! ## C15: the panic of `showEndpointHandler` -/

/-- On a declared path, a method whose upper-case form is not one of the nine
method names makes `showEndpointHandler` panic. -/
theorem showEndpointHandler_panics (u : UnicodeTables) (ord : RangeOrder) (spec : T)
    (path method : String) (pathItem : PathItem)
    (hfind : Find ord spec.Paths path = some pathItem)
    (hm : ToUpper u method ∉ standardMethods) :
    showEndpointHandler u ord spec [("path", .str path), ("method", .str method)] =
      .error ("unsupported HTTP method \"" ++ ToUpper u method ++ "\"") := by
  rw [showEndpointHandler_eq, hfind]
  simp only [GetOperation_other pathItem _ hm]

/-- C15 at the failing inputs: on a document that declares GET and DELETE on
`/users/{id}`, the methods "FOO" and "" on that path make `showEndpointHandler`
panic with `unsupported HTTP method`, where the claim asks for a result. -/
theorem show_endpoint_faults :
    showEndpointHandler .ascii .asListed userSpec
        [("path", .str "/users/{id}"), ("method", .str "FOO")] =
      .error "unsupported HTTP method \"FOO\"" ∧
    showEndpointHandler .ascii .asListed userSpec
        [("path", .str "/users/{id}"), ("method", .str "")] =
      .error "unsupported HTTP method \"\"" :=
  ⟨rfl, rfl⟩

/-! ## C18: the text message of `listCategoriesHandler` -/

/-- The tally is empty exactly when the handler gives no category to any path. -/
theorem tallyCategories_length_eq_zero (paths : GoMap PathItem) :
    (tallyCategories paths).length = 0 ↔ ∀ q ∈ paths, categoryOfPath q.1 = none := by
  constructor
  · intro h q hq
    cases hc : categoryOfPath q.1 with
    | none => rfl
    | some k =>
      have hget := tallyCategories_get k paths
      rw [List.length_eq_zero.1 h] at hget
      have hmem : q ∈ paths.filter (fun e => categoryOfPath e.1 = some k) :=
        List.mem_filter.2 ⟨hq, by simp [hc]⟩
      have hpos : (paths.filter (fun e => categoryOfPath e.1 = some k)).length ≠ 0 :=
        Nat.ne_of_gt (List.length_pos_of_mem hmem)
      rw [if_neg hpos] at hget
      simp [GoMap.get] at hget
  · intro h
    cases ht : tallyCategories paths with
    | nil => rfl
    | cons e rest =>
      have hget : (tallyCategories paths).get e.1 = some e.2 := by
        rw [ht]; simp [GoMap.get]
      rw [tallyCategories_get] at hget
      split at hget
      · cases hget
      · rename_i hne
        obtain ⟨q, hq⟩ := List.exists_mem_of_length_pos (Nat.pos_of_ne_zero hne)
        have hq' := List.mem_filter.1 hq
        have := h q hq'.1
        simp [this] at hq'

/-- C18, as stated, fails: a document that declares the one path template `/` gets
the text message, not an array. -/
theorem list_categories_text_counterexample :
    rootOnlySpec.Paths.length = 1 ∧
    listCategoriesHandler .asListed rootOnlySpec [] =
      .text "No categories found in the OpenAPI specification" :=
  ⟨rfl, rfl⟩

/-- C18, amended: `listCategoriesHandler` returns the explanatory text message
instead of a JSON array if and only if no declared path template has a non-empty
first segment; whenever at least one declared path template has a non-empty first
segment it returns a non-empty array. -/
theorem list_categories_text_iff (ord : RangeOrder) (spec : T) (request : CallToolRequest) :
    (listCategoriesHandler ord spec request =
        .text "No categories found in the OpenAPI specification" ↔
      ∀ q ∈ spec.Paths, first_segment (strip_leading_slash q.1) = "") ∧
    (∀ msg, listCategoriesHandler ord spec request = .text msg →
      msg = "No categories found in the OpenAPI specification") ∧
    ((∃ q ∈ spec.Paths, first_segment (strip_leading_slash q.1) ≠ "") →
      ∃ out, out ≠ [] ∧ listCategoriesHandler ord spec request = .json (.arr out)) := by
  have hzero : (tallyCategories spec.Paths).length = 0 ↔
      ∀ q ∈ spec.Paths, first_segment (strip_leading_slash q.1) = "" := by
    rw [tallyCategories_length_eq_zero]
    constructor
    · intro h q hq
      have := h q hq
      rw [categoryOfPath_eq] at this
      by_contra hne
      rw [if_neg hne] at this
      cases this
    · intro h q hq
      rw [categoryOfPath_eq, if_pos (h q hq)]
  rw [listCategoriesHandler_order]
  refine ⟨?_, ?_, ?_⟩
  · rw [← hzero]
    by_cases h : (tallyCategories spec.Paths).length = 0
    · simp [h]
    · simp [h]
  · intro msg h
    split at h
    · injection h with h; exact h.symm
    · cases h
  · rintro ⟨q, hq, hne⟩
    have h : ¬ (tallyCategories spec.Paths).length = 0 := fun h0 => hne (hzero.1 h0 q hq)
    rw [if_neg h]
    refine ⟨_, ?_, rfl⟩
    intro hnil
    apply h
    have := congrArg List.length hnil
    simpa [(SortMapsByName_perm _).length_eq] using this

/-- C18, amended, on the paths `/users`, `/users/{id}`, `/orders`: a template with a
non-empty first segment is declared and the result is a non-empty array. -/
theorem list_categories_text_iff_witness :
    (∃ q ∈ (specOfPaths (usersOrdersPaths getItem getItem getItem)).Paths,
      first_segment (strip_leading_slash q.1) ≠ "") ∧
    ∃ out, out ≠ [] ∧
      listCategoriesHandler .asListed (specOfPaths (usersOrdersPaths getItem getItem getItem)) [] =
        .json (.arr out) :=
  ⟨⟨("/users", getItem), by simp [specOfPaths, usersOrdersPaths], by decide⟩,
   (list_categories_text_iff .asListed (specOfPaths (usersOrdersPaths getItem getItem getItem))
      []).2.2 ⟨("/users", getItem), by simp [specOfPaths, usersOrdersPaths], by decide⟩⟩

/-! ## C19: the placeholders of the expansion -/

theorem get_properties_placeholders (schema : Schema) (h : schema.Properties.length ≥ 1) :
    (schemaPlaceholders schema).get "properties" =
      some (.str (propertiesPlaceholder schema.Properties.length)) := by
  unfold schemaPlaceholders
  have h' : schema.Properties.length > 0 := h
  simp [h', GoMap.get]

theorem get_items_placeholders (schema : Schema) (items : SchemaRef)
    (h : schema.Items = some items) :
    (schemaPlaceholders schema).get "items" = some (.str "[not expanded]") := by
  unfold schemaPlaceholders
  rw [get_append, h]
  split_ifs <;> simp [GoMap.get]

/-- C19: for a schema node with a value, expanded at a current depth equal to the
maximum depth (or beyond it): with `n ≥ 1` properties the field `properties` of
the output is the string `[n properties not expanded]`, with an items schema the
field `items` is the string `[not expanded]`, and no recursive call is made: the
output depends on the node alone, not on the rest of the schema graph. At a
current depth below the maximum the same fields hold the expansions of each
property and of the items schema at the depth `d + 1`. -/
theorem placeholders_at_bound (heap : Addr → Schema) (addr : Addr) (d D : Int) :
    (D ≤ d →
      ∃ fields,
        schemaToMapWithDepth heap (some { Ref := "", Value := some addr }) d D = .obj fields ∧
        ((heap addr).Properties.length ≥ 1 →
          GoMap.get fields "properties" = some (.str
            ("[" ++ toString (heap addr).Properties.length ++ " properties not expanded]"))) ∧
        (∀ items, (heap addr).Items = some items →
          GoMap.get fields "items" = some (.str "[not expanded]")) ∧
        (∀ heap' : Addr → Schema, heap' addr = heap addr →
          schemaToMapWithDepth heap' (some { Ref := "", Value := some addr }) d D =
            .obj fields)) ∧
    (d < D →
      ∃ fields,
        schemaToMapWithDepth heap (some { Ref := "", Value := some addr }) d D = .obj fields ∧
        ((heap addr).Properties.length ≥ 1 →
          GoMap.get fields "properties" = some (.obj ((heap addr).Properties.map (fun prop =>
            (prop.1, schemaToMapWithDepth heap prop.2 (d + 1) D))))) ∧
        (∀ items, (heap addr).Items = some items →
          GoMap.get fields "items" =
            some (schemaToMapWithDepth heap (some items) (d + 1) D))) ∧
    propertiesPlaceholder 12 = "[12 properties not expanded]" := by
  refine ⟨?_, ?_, by decide⟩
  · intro hd
    have hlt : ¬ d < D := by omega
    refine ⟨_, schemaToMapWithDepth_value heap _ d D addr rfl rfl, ?_, ?_, ?_⟩
    · intro hn
      rw [get_between (heap addr) _ "properties" (by decide) (by decide), if_neg hlt]
      exact get_properties_placeholders (heap addr) hn
    · intro items hitems
      rw [get_between (heap addr) _ "items" (by decide) (by decide), if_neg hlt]
      exact get_items_placeholders (heap addr) items hitems
    · intro heap' hsame
      rw [schemaToMapWithDepth_value heap' _ d D addr rfl rfl, if_neg hlt, if_neg hlt, hsame]
  · intro hlt
    refine ⟨_, schemaToMapWithDepth_value heap _ d D addr rfl rfl, ?_, ?_⟩
    · intro hn
      have hn' : (heap addr).Properties.length > 0 := hn
      rw [get_between (heap addr) _ "properties" (by decide) (by decide), if_pos hlt,
        if_pos hn']
      rfl
    · intro items hitems
      rw [get_between (heap addr) _ "items" (by decide) (by decide), if_pos hlt, get_append,
        hitems]
      split_ifs <;> simp [GoMap.get]

/-- C19 on the cyclic graph, at the depth 2 with the bound 2: the schema object at
the address 1 has one property and an items schema, and both are placeholders. -/
theorem placeholders_at_bound_witness :
    ∃ fields,
      schemaToMapWithDepth cyclicHeap (some { Ref := "", Value := some 1 }) 2 2 = .obj fields ∧
      ((cyclicHeap 1).Properties.length ≥ 1 →
        GoMap.get fields "properties" = some (.str
          ("[" ++ toString (cyclicHeap 1).Properties.length ++ " properties not expanded]"))) ∧
      (∀ items, (cyclicHeap 1).Items = some items →
        GoMap.get fields "items" = some (.str "[not expanded]")) ∧
      (∀ heap' : Addr → Schema, heap' 1 = cyclicHeap 1 →
        schemaToMapWithDepth heap' (some { Ref := "", Value := some 1 }) 2 2 = .obj fields) :=
  (placeholders_at_bound cyclicHeap 1 2 2).1 (by decide)

/-! ## C14: the result of `showSchemaHandler` -/

/-- In a loaded document every entry of `components.schemas` has a reference string
or a value. -/
theorem resolved_of_get (spec : T) (c : Components) (s : GoMap SchemaRef) (name : String)
    (schemaRef : SchemaRef) (hloaded : schemasResolved spec = true)
    (hc : spec.Components = some c) (hs : c.Schemas = some s)
    (hg : s.get name = some schemaRef) :
    schemaRef.Ref ≠ "" ∨ schemaRef.Value ≠ none := by
  unfold schemasResolved at hloaded
  rw [hc] at hloaded
  simp only [hs, List.all_eq_true] at hloaded
  have := hloaded (name, schemaRef) (mem_of_get_eq_some hg)
  simp only [Bool.or_eq_true, bne_iff_ne, ne_eq, Option.isSome_iff_exists] at this
  rcases this with h | ⟨addr, h⟩
  · exact Or.inl h
  · exact Or.inr (by rw [h]; simp)

/-- C14: on a loaded document, whenever `showSchemaHandler` succeeds, `ref` is
`#/components/schemas/` followed by a name under which the components hold an
entry, and the result is the object with exactly the three keys `name` (that
name), `ref` (the argument) and `schema`: `{"$ref": r}` when the entry has the
reference string `r`, and otherwise the expansion of the entry from the depth 0
with the bound 4. -/
theorem show_schema_result (spec : T) (ref : String) (v : JVal)
    (hloaded : schemasResolved spec = true)
    (h : showSchemaHandler spec [("ref", .str ref)] = .json v) :
    ∃ (name : String) (c : Components) (s : GoMap SchemaRef) (schemaRef : SchemaRef),
      ref = "#/components/schemas/" ++ name ∧
      spec.Components = some c ∧ c.Schemas = some s ∧ s.get name = some schemaRef ∧
      v = .obj [("name", .str name), ("ref", .str ref),
        ("schema",
          if schemaRef.Ref ≠ "" then .obj [("$ref", .str schemaRef.Ref)]
          else schemaToMapWithDepth spec.heap (some schemaRef) 0 4)] := by
  unfold showSchemaHandler at h
  rw [RequireString_ref] at h
  by_cases hp : HasPrefix ref "#/components/schemas/" = true
  · obtain ⟨name, hname⟩ := (HasPrefix_iff _ _).1 hp
    simp only [hp, not_true_eq_false, if_false] at h
    have htrim : TrimPrefix ref "#/components/schemas/" = name := by
      rw [hname, TrimPrefix_append]
    rw [htrim] at h
    cases hc : spec.Components with
    | none => simp [hc] at h
    | some c =>
      cases hs : c.Schemas with
      | none => simp [hc, hs] at h
      | some s =>
        cases hg : s.get name with
        | none => simp [hc, hs, hg] at h
        | some schemaRef =>
          refine ⟨name, c, s, schemaRef, hname, rfl, hs, hg, ?_⟩
          simp only [hc, hs, hg, JSONResponse, ToolResult.json.injEq] at h
          rw [← h]
          by_cases hr : schemaRef.Ref = ""
          · cases hval : schemaRef.Value with
            | none =>
              rcases resolved_of_get spec c s name schemaRef hloaded hc hs hg with h' | h'
              · exact absurd hr h'
              · exact absurd hval h'
            | some addr => simp [hr, hval, DetailedSchemaMaxDepth]
          · simp [hr]
  · simp [hp] at h

/-- C14 on the document that declares `User`: every entry of its components has a
value, and the result for `#/components/schemas/User` has the three keys, with
the expansion bounded by 4. -/
theorem show_schema_result_witness :
    schemasResolved userSpec = true ∧
    ∃ (name : String) (c : Components) (s : GoMap SchemaRef) (schemaRef : SchemaRef),
      "#/components/schemas/User" = "#/components/schemas/" ++ name ∧
      userSpec.Components = some c ∧ c.Schemas = some s ∧ s.get name = some schemaRef ∧
      JVal.obj [("name", .str "User"), ("ref", .str "#/components/schemas/User"),
          ("schema", schemaToMapWithDepth userSpec.heap (some { Ref := "", Value := some 0 }) 0
            DetailedSchemaMaxDepth)] =
        .obj [("name", .str name), ("ref", .str "#/components/schemas/User"),
          ("schema",
            if schemaRef.Ref ≠ "" then .obj [("$ref", .str schemaRef.Ref)]
            else schemaToMapWithDepth userSpec.heap (some schemaRef) 0 4)] :=
  ⟨rfl, show_schema_result userSpec "#/components/schemas/User" _ rfl rfl⟩

/-! ## C16: the responses of `showEndpointHandler` -/

/-- A call of `showEndpointHandler` that returns a JSON result has found a path
item and an operation declared under the method in upper case. -/
theorem showEndpointHandler_json (u : UnicodeTables) (ord : RangeOrder) (spec : T)
    (path method : String) (v : JVal)
    (h : showEndpointHandler u ord spec [("path", .str path), ("method", .str method)] =
      .ok (.json v)) :
    ∃ pathItem operation,
      Find ord spec.Paths path = some pathItem ∧
      ToUpper u method ∈ standardMethods ∧
      pathItem.Operations.get (ToUpper u method) = some operation ∧
      v = .obj (endpointDetail u spec.heap path method operation) := by
  rw [showEndpointHandler_eq] at h
  cases hfind : Find ord spec.Paths path with
  | none => rw [hfind] at h; cases h
  | some pathItem =>
    rw [hfind] at h
    by_cases hm : ToUpper u method ∈ standardMethods
    · simp only [GetOperation_standard pathItem _ hm] at h
      cases hget : pathItem.Operations.get (ToUpper u method) with
      | none => rw [hget] at h; cases h
      | some operation =>
        rw [hget] at h
        simp only [Except.ok.injEq, ToolResult.json.injEq] at h
        exact ⟨pathItem, operation, rfl, hm, hget, h.symm⟩
    · simp only [GetOperation_other pathItem _ hm] at h
      cases h

/-- The field `responses` of the description of an operation. -/
theorem get_responses_endpointDetail (u : UnicodeTables) (heap : Addr → Schema)
    (path method : String) (operation : Operation) :
    (endpointDetail u heap path method operation).get "responses" =
      match operation.Responses with
      | some responses =>
        some (.obj (responses.map (fun r => (r.1, JVal.obj (responseInfo heap r.2)))))
      | none => none := by
  obtain ⟨summary, description, operationID, tags, parameters, body, responses⟩ := operation
  rcases body with _ | ⟨⟨_ | body⟩⟩ <;> cases responses <;>
    simp only [endpointDetail] <;> split_ifs <;> simp [GoMap.get, get_append]

/-- The field `method` of the description of an operation. -/
theorem get_method_endpointDetail (u : UnicodeTables) (heap : Addr → Schema)
    (path method : String) (operation : Operation) :
    (endpointDetail u heap path method operation).get "method" =
      some (.str (ToUpper u method)) := by
  obtain ⟨summary, description, operationID, tags, parameters, body, responses⟩ := operation
  rcases body with _ | ⟨⟨_ | body⟩⟩ <;> cases responses <;>
    simp only [endpointDetail] <;> split_ifs <;> simp [GoMap.get, get_append]

theorem get_description_responseInfo (heap : Addr → Schema) (response : Response) :
    (responseInfo heap response).get "description" =
      some (match response.Description with
            | some d => JVal.str d
            | none => JVal.null) := by
  obtain ⟨description, content⟩ := response
  cases description <;> cases content <;> simp [responseInfo, GoMap.get]

/-- C16, as stated, fails: GET on `/users/{id}`, an operation without a responses
block, succeeds with a result that has no field `responses`. -/
theorem show_endpoint_responses_counterexample :
    showEndpointHandler .ascii .asListed usersByIdSpec
        [("path", .str "/users/{id}"), ("method", .str "GET")] =
      .ok (.json (.obj [("path", .str "/users/{id}"), ("method", .str "GET"),
        ("summary", .str "read"), ("description", .str ""), ("operationId", .str ""),
        ("tags", .null)])) ∧
    GoMap.get [("path", JVal.str "/users/{id}"), ("method", .str "GET"),
        ("summary", .str "read"), ("description", .str ""), ("operationId", .str ""),
        ("tags", .null)] "responses" = none :=
  ⟨rfl, rfl⟩

/-- C16, amended: whenever `showEndpointHandler` succeeds on an operation that has
a responses block, the result contains the object `responses`, keyed by exactly
the status codes that the operation declares, each entry carrying the
description of its response; when the operation has no responses block the
result has no field `responses`. -/
theorem show_endpoint_responses (u : UnicodeTables) (ord : RangeOrder) (spec : T)
    (path method : String) (v : JVal)
    (h : showEndpointHandler u ord spec [("path", .str path), ("method", .str method)] =
      .ok (.json v)) :
    ∃ fields pathItem operation,
      v = .obj fields ∧
      Find ord spec.Paths path = some pathItem ∧
      pathItem.Operations.get (ToUpper u method) = some operation ∧
      (∀ responses, operation.Responses = some responses →
        ∃ entries : GoMap JVal,
          GoMap.get fields "responses" = some (.obj entries) ∧
          entries.map Prod.fst = responses.map Prod.fst ∧
          ∀ code response, (code, response) ∈ responses →
            ∃ info : GoMap JVal, (code, JVal.obj info) ∈ entries ∧
              info.get "description" = some (match response.Description with
                                             | some d => JVal.str d
                                             | none => JVal.null)) ∧
      (operation.Responses = none → GoMap.get fields "responses" = none) := by
  obtain ⟨pathItem, operation, hfind, _, hget, hv⟩ :=
    showEndpointHandler_json u ord spec path method v h
  refine ⟨_, pathItem, operation, hv, hfind, hget, ?_, ?_⟩
  · intro responses hr
    refine ⟨responses.map (fun r => (r.1, JVal.obj (responseInfo spec.heap r.2))), ?_, ?_, ?_⟩
    · rw [get_responses_endpointDetail, hr]
    · simp [List.map_map, Function.comp_def]
    · intro code response hmem
      exact ⟨responseInfo spec.heap response,
        List.mem_map.2 ⟨(code, response), hmem, rfl⟩,
        get_description_responseInfo spec.heap response⟩
  · intro hr
    rw [get_responses_endpointDetail, hr]

/-- C16, amended, on GET `/pets`, which declares the responses 200 and 404. -/
theorem show_endpoint_responses_witness :
    ∃ fields pathItem operation,
      JVal.obj (endpointDetail .ascii petsSpec.heap "/pets" "get" respondingOperation) =
        .obj fields ∧
      Find .asListed petsSpec.Paths "/pets" = some pathItem ∧
      pathItem.Operations.get (ToUpper .ascii "get") = some operation ∧
      (∀ responses, operation.Responses = some responses →
        ∃ entries : GoMap JVal,
          GoMap.get fields "responses" = some (.obj entries) ∧
          entries.map Prod.fst = responses.map Prod.fst ∧
          ∀ code response, (code, response) ∈ responses →
            ∃ info : GoMap JVal, (code, JVal.obj info) ∈ entries ∧
              info.get "description" = some (match response.Description with
                                             | some d => JVal.str d
                                             | none => JVal.null)) ∧
      (operation.Responses = none → GoMap.get fields "responses" = none) :=
  show_endpoint_responses .ascii .asListed petsSpec "/pets" "get" _ rfl

/-! ## C17: the case of the method -/

/-- The nine method names are their own upper-case form. -/
theorem ToUpper_standard (u : UnicodeTables) (m : String) (hm : ToUpper u m ∈ standardMethods) :
    ToUpper u (ToUpper u m) = ToUpper u m := by
  simp only [standardMethods, List.mem_cons, List.mem_singleton, List.not_mem_nil, or_false] at hm
  rcases hm with h | h | h | h | h | h | h | h | h <;> rw [h] <;> rfl

theorem endpointDetail_upper (u : UnicodeTables) (heap : Addr → Schema) (path m : String)
    (operation : Operation) (h : ToUpper u (ToUpper u m) = ToUpper u m) :
    endpointDetail u heap path (ToUpper u m) operation = endpointDetail u heap path m operation := by
  unfold endpointDetail
  rw [h]

/-- The result of `showEndpointHandler` on the upper-case form of a method whose
upper-case form is one of the nine method names. -/
theorem showEndpointHandler_upper (u : UnicodeTables) (ord : RangeOrder) (spec : T)
    (path m : String) (hm : ToUpper u m ∈ standardMethods) :
    showEndpointHandler u ord spec [("path", .str path), ("method", .str (ToUpper u m))] =
      match Find ord spec.Paths path with
      | none => .ok (.error .NotFound ("Path not found: " ++ path))
      | some pathItem =>
        match pathItem.Operations.get (ToUpper u m) with
        | none =>
          .ok (.error .NotFound ("Method " ++ ToUpper u m ++ " not found for path: " ++ path))
        | some operation => .ok (.json (.obj (endpointDetail u spec.heap path m operation))) := by
  have hfix := ToUpper_standard u m hm
  rw [showEndpointHandler_eq]
  cases Find ord spec.Paths path with
  | none => rfl
  | some pathItem =>
    simp only [hfix, GetOperation_standard pathItem _ hm]
    cases pathItem.Operations.get (ToUpper u m) with
    | none => rfl
    | some operation => simp only [endpointDetail_upper u spec.heap path m operation hfix]

/-- The result of `showEndpointHandler` on a method whose upper-case form is one of
the nine method names. -/
theorem showEndpointHandler_standard (u : UnicodeTables) (ord : RangeOrder) (spec : T)
    (path m : String) (hm : ToUpper u m ∈ standardMethods) :
    showEndpointHandler u ord spec [("path", .str path), ("method", .str m)] =
      match Find ord spec.Paths path with
      | none => .ok (.error .NotFound ("Path not found: " ++ path))
      | some pathItem =>
        match pathItem.Operations.get (ToUpper u m) with
        | none => .ok (.error .NotFound ("Method " ++ m ++ " not found for path: " ++ path))
        | some operation => .ok (.json (.obj (endpointDetail u spec.heap path m operation))) := by
  rw [showEndpointHandler_eq]
  cases Find ord spec.Paths path with
  | none => rfl
  | some pathItem =>
    simp only [GetOperation_standard pathItem _ hm]
    cases pathItem.Operations.get (ToUpper u m) <;> rfl

/-- The lookup does not depend on the order of the map when the key is declared,
or when the declared templates with the normal form of the key all carry the
same path item. -/
theorem Find_order (ord ord' : RangeOrder) (paths : GoMap PathItem) (key : String)
    (h : (paths.get key).isSome = true ∨
      ∀ q ∈ paths, ∀ q' ∈ paths,
        normalizeTemplatedPath q.1 = normalizeTemplatedPath key →
        normalizeTemplatedPath q'.1 = normalizeTemplatedPath key → q.2 = q'.2) :
    Find ord paths key = Find ord' paths key := by
  rcases h with h | h
  · cases hget : paths.get key with
    | none => rw [hget] at h; cases h
    | some pathItem =>
      rw [Find_of_get ord paths key pathItem hget, Find_of_get ord' paths key pathItem hget]
  · cases h1 : Find ord paths key with
    | none =>
      exact ((Find_eq_none_iff ord' paths key).2 ((Find_eq_none_iff ord paths key).1 h1)).symm
    | some pathItem =>
      cases h2 : Find ord' paths key with
      | none =>
        rw [(Find_eq_none_iff ord paths key).2 ((Find_eq_none_iff ord' paths key).1 h2)] at h1
        cases h1
      | some pathItem' =>
        obtain ⟨k, hk, hn⟩ := Find_some ord paths key pathItem h1
        obtain ⟨k', hk', hn'⟩ := Find_some ord' paths key pathItem' h2
        have heq : pathItem = pathItem' := h (k, pathItem) hk (k', pathItem') hk' hn hn'
        rw [heq]

/-- C17, as stated, fails in two ways. On the document with GET and DELETE on
`/users/{id}`, the method "post" and its upper-case form "POST" give two
different results, because the NotFound message quotes the method as it was
given. On the document with GET on `/users/{id}` and POST on `/users/{name}`, the
path `/users/{x}` has the normal form of both templates and `Find` returns the
one that the map yields first: "get" succeeds when that is `/users/{id}`, and
"GET" is not found when that is `/users/{name}`. -/
theorem show_endpoint_case_counterexample :
    showEndpointHandler .ascii .asListed usersByIdSpec
        [("path", .str "/users/{id}"), ("method", .str "post")] =
      .ok (.error .NotFound "Method post not found for path: /users/{id}") ∧
    showEndpointHandler .ascii .asListed usersByIdSpec
        [("path", .str "/users/{id}"), ("method", .str (ToUpper .ascii "post"))] =
      .ok (.error .NotFound "Method POST not found for path: /users/{id}") ∧
    "Method post not found for path: /users/{id}" ≠
      "Method POST not found for path: /users/{id}" ∧
    showEndpointHandler .ascii .asListed twoTemplatesSpec
        [("path", .str "/users/{x}"), ("method", .str "get")] =
      .ok (.json (.obj
        [("path", .str "/users/{x}"), ("method", .str "GET"), ("summary", .str "read"),
         ("description", .str ""), ("operationId", .str ""), ("tags", .null)])) ∧
    showEndpointHandler .ascii .reversed twoTemplatesSpec
        [("path", .str "/users/{x}"), ("method", .str (ToUpper .ascii "get"))] =
      .ok (.error .NotFound "Method GET not found for path: /users/{x}") :=
  ⟨rfl, rfl, by decide, rfl, rfl⟩

/-- C17, amended. When no declared template has the normal form of the path,
`showEndpointHandler` on `m` and on the upper-case form of `m` return the same
NotFound error, for every method string `m` and every order of the map. When the
lookup of the path has one possible outcome (the path is a declared template, or
the declared templates with its normal form all carry the same path item) and
the upper-case form of `m` is one of the nine method names, then for every two
orders of the map the two calls succeed on the same inputs with the same
result, in which the field `method` is the upper-case form of `m`; they return a
NotFound error on the same inputs, and when the method is not declared each
message quotes the method as given. So "get", "Get" and "GET" are
interchangeable where the operation exists. -/
theorem show_endpoint_case_insensitive (u : UnicodeTables) (ord ord' : RangeOrder) (spec : T)
    (path m : String) :
    ((∀ q ∈ spec.Paths, normalizeTemplatedPath q.1 ≠ normalizeTemplatedPath path) →
      showEndpointHandler u ord spec [("path", .str path), ("method", .str m)] =
        .ok (.error .NotFound ("Path not found: " ++ path)) ∧
      showEndpointHandler u ord' spec [("path", .str path), ("method", .str (ToUpper u m))] =
        .ok (.error .NotFound ("Path not found: " ++ path))) ∧
    (((spec.Paths.get path).isSome = true ∨
        ∀ q ∈ spec.Paths, ∀ q' ∈ spec.Paths,
          normalizeTemplatedPath q.1 = normalizeTemplatedPath path →
          normalizeTemplatedPath q'.1 = normalizeTemplatedPath path → q.2 = q'.2) →
      ToUpper u m ∈ standardMethods →
      (∀ v, showEndpointHandler u ord spec [("path", .str path), ("method", .str m)] =
          .ok (.json v) ↔
        showEndpointHandler u ord' spec [("path", .str path), ("method", .str (ToUpper u m))] =
          .ok (.json v)) ∧
      (∀ v, showEndpointHandler u ord spec [("path", .str path), ("method", .str m)] =
          .ok (.json v) →
        ∃ fields, v = .obj fields ∧ GoMap.get fields "method" = some (.str (ToUpper u m))) ∧
      ((∃ msg, showEndpointHandler u ord spec [("path", .str path), ("method", .str m)] =
          .ok (.error .NotFound msg)) ↔
        (∃ msg, showEndpointHandler u ord' spec
            [("path", .str path), ("method", .str (ToUpper u m))] =
          .ok (.error .NotFound msg))) ∧
      (∀ pathItem, Find ord spec.Paths path = some pathItem →
        (∀ operation, (ToUpper u m, operation) ∉ declared_operations pathItem) →
        showEndpointHandler u ord spec [("path", .str path), ("method", .str m)] =
          .ok (.error .NotFound ("Method " ++ m ++ " not found for path: " ++ path)) ∧
        showEndpointHandler u ord' spec [("path", .str path), ("method", .str (ToUpper u m))] =
          .ok (.error .NotFound
            ("Method " ++ ToUpper u m ++ " not found for path: " ++ path)))) ∧
    showEndpointHandler u ord usersByIdSpec [("path", .str "/users/{id}"), ("method", .str "get")] =
      showEndpointHandler u ord' usersByIdSpec
        [("path", .str "/users/{id}"), ("method", .str "GET")] ∧
    showEndpointHandler u ord usersByIdSpec [("path", .str "/users/{id}"), ("method", .str "Get")] =
      showEndpointHandler u ord' usersByIdSpec
        [("path", .str "/users/{id}"), ("method", .str "GET")] ∧
    showEndpointHandler u ord usersByIdSpec [("path", .str "/users/{id}"), ("method", .str "get")] =
      .ok (.json (.obj
        [("path", .str "/users/{id}"), ("method", .str "GET"), ("summary", .str "read"),
         ("description", .str ""), ("operationId", .str ""), ("tags", .null)])) := by
  refine ⟨?_, ?_, ?_, ?_, ?_⟩
  · intro h
    rw [showEndpointHandler_eq, showEndpointHandler_eq,
      (Find_eq_none_iff ord spec.Paths path).2 h, (Find_eq_none_iff ord' spec.Paths path).2 h]
    exact ⟨rfl, rfl⟩
  · intro hone hm
    have h₁ := showEndpointHandler_standard u ord spec path m hm
    have h₂ := showEndpointHandler_upper u ord' spec path m hm
    rw [← Find_order ord ord' spec.Paths path hone] at h₂
    refine ⟨?_, ?_, ?_, ?_⟩
    · intro v
      rw [h₁, h₂]
      cases Find ord spec.Paths path with
      | none => simp
      | some pathItem =>
        cases hg : pathItem.Operations.get (ToUpper u m) <;> simp [hg]
    · intro v hv
      obtain ⟨_, operation, _, _, _, hv'⟩ := showEndpointHandler_json u ord spec path m v hv
      exact ⟨_, hv', get_method_endpointDetail u spec.heap path m operation⟩
    · rw [h₁, h₂]
      cases Find ord spec.Paths path with
      | none => simp
      | some pathItem =>
        cases hg : pathItem.Operations.get (ToUpper u m) <;> simp [hg]
    · intro pathItem hfind hget
      rw [h₁, h₂, hfind]
      simp only [(get_Operations_eq_none_iff pathItem _).2 hget, and_self]
  · rw [showEndpointHandler_eq, showEndpointHandler_eq,
      Find_of_get ord usersByIdSpec.Paths "/users/{id}" getDeleteItem rfl,
      Find_of_get ord' usersByIdSpec.Paths "/users/{id}" getDeleteItem rfl]
    rfl
  · rw [showEndpointHandler_eq, showEndpointHandler_eq,
      Find_of_get ord usersByIdSpec.Paths "/users/{id}" getDeleteItem rfl,
      Find_of_get ord' usersByIdSpec.Paths "/users/{id}" getDeleteItem rfl]
    rfl
  · rw [showEndpointHandler_eq,
      Find_of_get ord usersByIdSpec.Paths "/users/{id}" getDeleteItem rfl]
    rfl

/-- C17, amended, at the method "get" on the document with GET and DELETE on
`/users/{id}`: the path is declared, "GET" is one of the nine method names, and
under two different orders "get" and "GET" give the same JSON result. -/
theorem show_endpoint_case_insensitive_witness :
    (usersByIdSpec.Paths.get "/users/{id}").isSome = true ∧
    ToUpper .ascii "get" ∈ standardMethods ∧
    showEndpointHandler .ascii .asListed usersByIdSpec
        [("path", .str "/users/{id}"), ("method", .str "get")] =
      .ok (.json (.obj
        [("path", .str "/users/{id}"), ("method", .str "GET"), ("summary", .str "read"),
         ("description", .str ""), ("operationId", .str ""), ("tags", .null)])) ∧
    showEndpointHandler .ascii .reversed usersByIdSpec
        [("path", .str "/users/{id}"), ("method", .str (ToUpper .ascii "get"))] =
      .ok (.json (.obj
        [("path", .str "/users/{id}"), ("method", .str "GET"), ("summary", .str "read"),
         ("description", .str ""), ("operationId", .str ""), ("tags", .null)])) :=
  ⟨rfl, by decide, rfl,
   (((show_endpoint_case_insensitive .ascii .asListed .reversed usersByIdSpec "/users/{id}"
      "get").2.1 (Or.inl rfl) (by decide)).1 _).1 rfl⟩

/-! ## C21: `listCategoriesHandler` and the order of the maps -/

/-- C21: the result of `listCategoriesHandler` does not depend on the order in
which the path map and the tally map are traversed: two traversal orders, and two
listings of the same path map, give the identical result. The names in the tally
are pairwise distinct, and so the sort has one outcome only: every slice that
holds the same entries and does not descend by name is the slice that
`SortMapsByName` returns. -/
theorem list_categories_deterministic (ord ord' : RangeOrder) (spec spec' : T)
    (request request' : CallToolRequest) (hpaths : spec'.Paths.Perm spec.Paths) :
    listCategoriesHandler ord spec request = listCategoriesHandler ord' spec' request' ∧
    ((tallyCategories spec.Paths).map Prod.fst).Nodup ∧
    (∀ sorted : List (GoMap JVal),
      sorted.Perm ((ord.visit (tallyCategories (ord.visit spec.Paths))).map categoryEntry) →
      sorted.Pairwise (fun a b => ¬ lessByName b a) →
      sorted = SortMapsByName
        ((ord.visit (tallyCategories (ord.visit spec.Paths))).map categoryEntry)) := by
  have hnd : ((tallyCategories spec.Paths).map Prod.fst).Nodup :=
    tallyCategories_nodupKeys spec.Paths
  have hperm : (ord.visit (tallyCategories (ord.visit spec.Paths))).Perm
      (tallyCategories spec.Paths) :=
    (ord.perm _).trans (tallyCategories_perm (ord.perm spec.Paths))
  have hnames : (((ord.visit (tallyCategories (ord.visit spec.Paths))).map categoryEntry).map
      nameOf).Nodup := by
    rw [map_nameOf_categoryEntry]
    exact (hperm.map Prod.fst).nodup_iff.2 hnd
  refine ⟨?_, hnd, ?_⟩
  · have htally : (tallyCategories spec'.Paths).Perm (tallyCategories spec.Paths) :=
      tallyCategories_perm hpaths
    rw [listCategoriesHandler_order, listCategoriesHandler_order, htally.length_eq,
      SortMapsByName_congr (htally.map categoryEntry) (by
        rw [map_nameOf_categoryEntry]
        exact tallyCategories_nodupKeys spec'.Paths)]
  · intro sorted hsorted hpair
    have hnames' : (sorted.map nameOf).Nodup := (hsorted.map nameOf).nodup_iff.2 hnames
    have hstrict : sorted.Pairwise lessByName := by
      refine (hpair.and (List.pairwise_map.1 hnames')).imp ?_
      intro a b h
      unfold lessByName strLess at *
      rcases lt_or_eq_of_le (not_lt.1 h.1) with hlt | heq
      · exact hlt
      · exact absurd (String.ext heq) h.2
    have hanti : IsAntisymm (GoMap JVal) lessByName :=
      ⟨fun a b hab hba => absurd hba (by
        unfold lessByName strLess at *
        exact lt_asymm hab)⟩
    exact @List.eq_of_perm_of_sorted _ lessByName hanti _ _
      (hsorted.trans (SortMapsByName_perm _).symm) hstrict (SortMapsByName_strict _ hnames)

/-- C21 on the paths `/users`, `/users/{id}`, `/orders`, listed in two orders and
traversed in two orders: the results are identical. -/
theorem list_categories_deterministic_witness :
    (specOfPaths [("/orders", getItem), ("/users/{id}", getItem), ("/users", getItem)]).Paths.Perm
      (specOfPaths (usersOrdersPaths getItem getItem getItem)).Paths ∧
    listCategoriesHandler .asListed (specOfPaths (usersOrdersPaths getItem getItem getItem)) [] =
      listCategoriesHandler .reversed
        (specOfPaths [("/orders", getItem), ("/users/{id}", getItem), ("/users", getItem)]) [] :=
  ⟨(List.reverse_perm _).symm,
   (list_categories_deterministic .asListed .reversed
      (specOfPaths (usersOrdersPaths getItem getItem getItem))
      (specOfPaths [("/orders", getItem), ("/users/{id}", getItem), ("/users", getItem)]) [] []
      (List.reverse_perm _).symm).1⟩

/-! ## C22: `listCategoriesHandler` and `listEndpointsHandler` -/

/-- The expansion is never a string. -/
theorem schemaToMapWithDepth_not_placeholder (heap : Addr → Schema)
    (schemaRef : Option SchemaRef) (d D : Int) :
    isPlaceholder (schemaToMapWithDepth heap schemaRef d D) = false := by
  cases schemaRef with
  | none => rw [schemaToMapWithDepth_nil]; rfl
  | some sr =>
    by_cases hr : sr.Ref = ""
    · cases hv : sr.Value with
      | none => rw [schemaToMapWithDepth_no_value heap sr d D hr hv]; rfl
      | some addr => rw [schemaToMapWithDepth_value heap sr d D addr hr hv]; rfl
    · rw [schemaToMapWithDepth_ref heap sr d D hr]; rfl

/-- On a shallow schema with `n` levels left under the bound `D`, a larger bound
gives the same expansion, and the expansion holds no placeholder. -/
theorem shallow_expansion (heap : Addr → Schema) (D D' : Int) (hD : D ≤ D') :
    ∀ (n : Nat) (d : Int), (D - d).toNat = n → ∀ schemaRef : Option SchemaRef,
      shallow heap n schemaRef = true →
      schemaToMapWithDepth heap schemaRef d D' = schemaToMapWithDepth heap schemaRef d D ∧
      fullyExpanded n (schemaToMapWithDepth heap schemaRef d D) = true := by
  intro n
  induction n with
  | zero =>
    intro d hd schemaRef hs
    cases schemaRef with
    | none => simp [schemaToMapWithDepth_nil, fullyExpanded]
    | some sr =>
      simp only [shallow, Bool.and_eq_true, beq_iff_eq] at hs
      obtain ⟨hr, hval⟩ := hs
      cases hv : sr.Value with
      | none => simp [schemaToMapWithDepth_no_value heap sr d _ hr hv, fullyExpanded]
      | some addr =>
        rw [hv] at hval
        simp only [Bool.and_eq_true, List.isEmpty_iff, Option.isNone_iff_eq_none] at hval
        obtain ⟨hp, hi⟩ := hval
        have hlt : ¬ d < D := by omega
        have hmid : (if d < D' then
            (if (heap addr).Properties.length > 0 then
              [("properties", JVal.obj ((heap addr).Properties.map (fun prop =>
                (prop.1, schemaToMapWithDepth heap prop.2 (d + 1) D'))))]
            else []) ++
            (match (heap addr).Items with
             | some items => [("items", schemaToMapWithDepth heap (some items) (d + 1) D')]
             | none => [])
          else schemaPlaceholders (heap addr)) = ([] : GoMap JVal) := by
          simp [hp, hi, schemaPlaceholders]
        have hmid₀ : schemaPlaceholders (heap addr) = ([] : GoMap JVal) := by
          simp [hp, hi, schemaPlaceholders]
        rw [schemaToMapWithDepth_value heap sr d D' addr hr hv,
          schemaToMapWithDepth_value heap sr d D addr hr hv, hmid, if_neg hlt, hmid₀]
        refine ⟨rfl, ?_⟩
        simp only [fullyExpanded,
          get_between (heap addr) _ "properties" (by decide) (by decide),
          get_between (heap addr) _ "items" (by decide) (by decide)]
        rfl
  | succ m ih =>
    intro d hd schemaRef hs
    cases schemaRef with
    | none => simp [schemaToMapWithDepth_nil, fullyExpanded]
    | some sr =>
      simp only [shallow, Bool.and_eq_true, beq_iff_eq] at hs
      obtain ⟨hr, hval⟩ := hs
      cases hv : sr.Value with
      | none => simp [schemaToMapWithDepth_no_value heap sr d _ hr hv, fullyExpanded]
      | some addr =>
        rw [hv] at hval
        simp only [Bool.and_eq_true, List.all_eq_true] at hval
        obtain ⟨hprops, hitems⟩ := hval
        have hlt : d < D := by omega
        have hlt' : d < D' := by omega
        have hd' : (D - (d + 1)).toNat = m := by omega
        have hprops' : (heap addr).Properties.map (fun prop =>
            (prop.1, schemaToMapWithDepth heap prop.2 (d + 1) D')) =
            (heap addr).Properties.map (fun prop =>
              (prop.1, schemaToMapWithDepth heap prop.2 (d + 1) D)) := by
          apply List.map_congr_left
          intro prop hprop
          rw [(ih (d + 1) hd' prop.2 (hprops prop hprop)).1]
        rw [schemaToMapWithDepth_value heap sr d D' addr hr hv,
          schemaToMapWithDepth_value heap sr d D addr hr hv, if_pos hlt, if_pos hlt', hprops']
        cases hI : (heap addr).Items with
        | none =>
          refine ⟨rfl, ?_⟩
          simp only [fullyExpanded,
            get_between (heap addr) _ "properties" (by decide) (by decide),
            get_between (heap addr) _ "items" (by decide) (by decide), Bool.and_eq_true]
          constructor
          · by_cases hlen : (heap addr).Properties.length > 0
            · simp only [hlen, if_true, get_append, GoMap.get, List.all_eq_true]
              intro p hp
              obtain ⟨q, hq, rfl⟩ := List.mem_map.1 hp
              exact (ih (d + 1) hd' q.2 (hprops q hq)).2
            · simp [hlen, GoMap.get]
          · split_ifs <;> simp [GoMap.get]
        | some items =>
          rw [hI] at hitems
          have hit := ih (d + 1) hd' (some items) hitems
          simp only [hit.1]
          refine ⟨trivial, ?_⟩
          simp only [fullyExpanded,
            get_between (heap addr) _ "properties" (by decide) (by decide),
            get_between (heap addr) _ "items" (by decide) (by decide), Bool.and_eq_true]
          constructor
          · by_cases hlen : (heap addr).Properties.length > 0
            · simp only [hlen, if_true, get_append, GoMap.get, List.all_eq_true]
              intro p hp
              obtain ⟨q, hq, rfl⟩ := List.mem_map.1 hp
              exact (ih (d + 1) hd' q.2 (hprops q hq)).2
            · simp [hlen, GoMap.get]
          · by_cases hlen : (heap addr).Properties.length > 0
            · simp [hlen, GoMap.get, hit.2, schemaToMapWithDepth_not_placeholder]
            · simp [hlen, GoMap.get, hit.2, schemaToMapWithDepth_not_placeholder]

/-- C23: the depth bound does not alter shallow schemas. For a reference-free schema tree
in which every node that has properties or items lies at depth less than `D`, the
expansion from depth 0 with maximum depth `D` holds no placeholder string, and the
expansion with any maximum depth `D' ≥ D` is the same value. -/
theorem shallow_schema_unaltered (heap : Addr → Schema) (schemaRef : Option SchemaRef)
    (D : Int) (hshallow : shallow heap D.toNat schemaRef = true) :
    fullyExpanded D.toNat (schemaToMapWithDepth heap schemaRef 0 D) = true ∧
    ∀ D' : Int, D ≤ D' →
      schemaToMapWithDepth heap schemaRef 0 D' = schemaToMapWithDepth heap schemaRef 0 D := by
  refine ⟨(shallow_expansion heap D D (le_refl D) D.toNat 0 (by simp) schemaRef hshallow).2, ?_⟩
  intro D' hD
  exact (shallow_expansion heap D D' hD D.toNat 0 (by simp) schemaRef hshallow).1

/-- The `User` schema of the example has its properties at depth 0 only: the bound 1
already expands it in full, exactly as the bounds 2 and 4 of the two tools do. -/
theorem shallow_schema_unaltered_witness :
    shallow userSpec.heap (1 : Int).toNat (some ⟨"", some 0⟩) = true ∧
    (fullyExpanded (1 : Int).toNat (schemaToMapWithDepth userSpec.heap (some ⟨"", some 0⟩) 0 1)
        = true ∧
     ∀ D' : Int, 1 ≤ D' →
      schemaToMapWithDepth userSpec.heap (some ⟨"", some 0⟩) 0 D' =
        schemaToMapWithDepth userSpec.heap (some ⟨"", some 0⟩) 0 1) :=
  ⟨by decide, shallow_schema_unaltered userSpec.heap (some ⟨"", some 0⟩) 1 (by decide)⟩

end OpenAPIMCP
